import Mathlib

/-!
# crd-docs-generator: grouping, reference graph and naming

A shallow embedding of `cmd/parser.go` and `cmd/renderer.go`.

* A `*types.Type` is a handle (`TypeRef`) into a `Heap`; two handles are the same
  pointer exactly when they are equal. Members hold handles, so a struct may refer to
  itself or to a struct that refers back to it.
* A Go `map` that the code only ranges over is the list of its entries in the order in
  which `range` visits them; a theorem over all lists covers every iteration order.
* A Go `map` that the code indexes is a function from keys to values.
* Go compares strings byte by byte. On valid UTF-8 that is the order of the code
  points, which is the lexicographic order of `String.data`.
-/

namespace CrdDocs

/-! ## The gengo data model (`k8s.io/gengo/types`) -/

/-- A `*types.Type`: the address of a type declaration. -/
abbrev TypeRef := Nat

/-- The constants of `types.Kind`. -/
inductive Kind where
  | Builtin | Struct | Map | Slice | Pointer | Alias | Interface | Array | Chan | Func
  | DeclarationOf | Unknown | Unsupported | Protobuf
  deriving DecidableEq, Repr

/-- The struct `types.Name`. -/
structure TypeName where
  Package : String
  Name : String
  Path : String
  deriving DecidableEq, Repr

/-- The method `Name.String` of gengo: the bare name when there is no package, else
`Package.Name`. -/
def TypeName.String (n : TypeName) : String :=
  if n.Package = "" then n.Name else n.Package ++ "." ++ n.Name

/-- The struct `types.Member`; `Typ` is its field `Type`. -/
structure Member where
  Name : String
  Embedded : Bool
  CommentLines : List String
  Tags : String
  Typ : TypeRef
  deriving DecidableEq, Repr

/-- The struct `types.Type`, with the fields the generator reads. `Elem`, `Underlying`
and `ConstValue` are `none` where Go has `nil`. -/
structure GoType where
  Name : TypeName
  Kind : Kind
  CommentLines : List String
  SecondClosestCommentLines : List String
  Members : List Member
  Elem : Option TypeRef
  Underlying : Option TypeRef
  ConstValue : Option String
  deriving DecidableEq, Repr

/-- The memory the handles point into. gengo builds finite `Elem` and `Underlying`
chains; `elemDepth` and `underDepth` bound their lengths, so the loops of
`tryDereference` and `finalUnderlyingTypeOf` reach their `nil`. -/
structure Heap where
  type : TypeRef → GoType
  elemDepth : TypeRef → Nat
  elem_lt : ∀ t e, (type t).Elem = some e → elemDepth e < elemDepth t
  underDepth : TypeRef → Nat
  under_lt : ∀ t u, (type t).Underlying = some u → underDepth u < underDepth t

/-- The struct `types.Package`. `Types` and `Constants` are Go maps from a name to a
type, given as their entries in the order `range` visits them. -/
structure Package where
  Path : String
  SourcePath : String
  Name : String
  DocComments : List String
  Comments : List String
  Types : List (String × TypeRef)
  Constants : List (String × TypeRef)
  deriving DecidableEq, Repr

/-! ## `cmd/parser.go` -/

/-- The struct `apiPackage`. -/
structure apiPackage where
  apiGroup : String
  apiVersion : String
  GoPackages : List Package
  Types : List TypeRef
  Constants : List TypeRef
  deriving DecidableEq, Repr

/-- The library function `sort.SliceStable`: the sorted arrangement in which elements
that `less` does not separate keep their input order (a stable insertion sort; for a
strict weak order that arrangement is unique). -/
def sliceStable {α : Type} (less : α → α → Bool) (l : List α) : List α :=
  l.insertionSort (fun a b => less b a = false)

/-- The comparison closure of `sortPackages`. -/
def packageLess (a b : apiPackage) : Bool :=
  if a.apiGroup ≠ b.apiGroup then decide (a.apiGroup.data < b.apiGroup.data)
  else decide (a.apiVersion.data < b.apiVersion.data)

/-- Function `sortPackages`; the slice is sorted in place, the result is its final
content. -/
def sortPackages (packages : List apiPackage) : List apiPackage :=
  sliceStable packageLess packages

/-- Ascending order of `(apiGroup, apiVersion)`, the group compared first. -/
def keyLE (a b : apiPackage) : Prop :=
  a.apiGroup < b.apiGroup ∨ (a.apiGroup = b.apiGroup ∧ a.apiVersion ≤ b.apiVersion)

/-- An `apiPackage` literal of `Test_sortPackages`: only group and version are set. -/
def testPackage (g v : String) : apiPackage := ⟨g, v, [], [], []⟩

/-- Library functions whose results the generator passes on without the claims
depending on what they compute. `ExtractCommentTags marker lines key` is the slice that
gengo's `types.ExtractCommentTags(marker, lines)` holds under `key` (empty when the key
is absent); `Quote` is `strconv.Quote`; `Compile` is `regexp.Compile`, giving the
`MatchString` of the compiled pattern, or `none` when the pattern does not compile. -/
structure Lib where
  ExtractCommentTags : String → List String → String → List String
  Quote : String → String
  Compile : String → Option (String → Bool)

/-- Function `groupName`: the value of the `+groupName` tag when it is given exactly
once, else the empty string. -/
def groupName (L : Lib) (pkg : Package) : String :=
  match L.ExtractCommentTags "+" pkg.Comments "groupName" with
  | [v] => v
  | _ => ""

/-- A character class: one of the listed characters. -/
def charClass (cs : List Char) : RegularExpression Char :=
  cs.foldr (fun c r => RegularExpression.char c + r) 0

/-- A literal: the listed characters in sequence. -/
def literal (cs : List Char) : RegularExpression Char :=
  cs.foldr (fun c r => RegularExpression.char c * r) 1

/-- The regular expression `r+`. -/
def oneOrMore (r : RegularExpression Char) : RegularExpression Char :=
  r * RegularExpression.star r

/-- The regular expression `r?`. -/
def optional (r : RegularExpression Char) : RegularExpression Char :=
  1 + r

/-- The ASCII digits, `\d` of Go's regexp. -/
def asciiDigits : List Char := "0123456789".data

/-- The pattern `v\d+((alpha|beta)\d+)?` that `apiVersionForPackage` puts between `^`
and `$`. -/
def versionPattern : RegularExpression Char :=
  RegularExpression.char 'v' * oneOrMore (charClass asciiDigits) *
    optional ((literal "alpha".data + literal "beta".data) * oneOrMore (charClass asciiDigits))

/-- The test `regexp.MustCompile(r).MatchString(version)` of `apiVersionForPackage`:
between `^` and `$` (no flag `m`) the pattern has to match the whole text. -/
def matchVersion (version : String) : Bool :=
  versionPattern.rmatch version.data

/-- Function `apiVersionForPackage`: group and version of a package, or the error. -/
def apiVersionForPackage (L : Lib) (pkg : Package) : Except String (String × String) :=
  let group := groupName L pkg
  let version := pkg.Name
  let r := "^v\\d+((alpha|beta)\\d+)?$"
  if !matchVersion version then
    .error ("cannot infer kubernetes apiVersion of go package " ++ pkg.Path ++ " (basename "
      ++ L.Quote version ++ " doesn't match expected pattern " ++ r
      ++ " that's used to determine apiVersion)")
  else .ok (group, version)

/-- The closure `flattenTypes` of `combineAPIPackages`: the values of the map, in the
order `range` visits them. -/
def flattenTypes (typeMap : List (String × TypeRef)) : List TypeRef :=
  typeMap.map Prod.snd

/-- The variables `pkgMap` and `pkgIds` of `combineAPIPackages`. -/
structure CombineState where
  pkgMap : String → Option apiPackage
  pkgIds : List String

/-- One round of the loop of `combineAPIPackages` over `pkgs`. In the `else` branch
`v.Types` is assigned first, so the `append(v.Types, ...)` that is assigned to
`v.Constants` starts from the new `v.Types`. -/
def combineStep (L : Lib) (st : CombineState) (pkg : Package) : Except String CombineState :=
  match apiVersionForPackage L pkg with
  | .error err => .error ("could not get apiVersion for package " ++ pkg.Path ++ ": " ++ err)
  | .ok (apiGroup, apiVersion) =>
    let id := apiGroup ++ "/" ++ apiVersion
    match st.pkgMap id with
    | none =>
      .ok { pkgMap := fun k => if k = id then
              some { apiGroup := apiGroup, apiVersion := apiVersion,
                     Types := flattenTypes pkg.Types,
                     Constants := flattenTypes pkg.Constants,
                     GoPackages := [pkg] }
            else st.pkgMap k,
            pkgIds := st.pkgIds ++ [id] }
    | some v =>
      let types := v.Types ++ flattenTypes pkg.Types
      .ok { pkgMap := fun k => if k = id then
              some { v with Types := types,
                            Constants := types ++ flattenTypes pkg.Constants,
                            GoPackages := v.GoPackages ++ [pkg] }
            else st.pkgMap k,
            pkgIds := st.pkgIds }

/-- The loop of `combineAPIPackages` over `pkgs`; it returns at the first error. -/
def combineLoop (L : Lib) : List Package → CombineState → Except String CombineState
  | [], st => .ok st
  | pkg :: rest, st =>
    match combineStep L st pkg with
    | .error err => .error err
    | .ok st' => combineLoop L rest st'

/-- The library call `sort.Sort(sort.StringSlice(ids))`: the ascending arrangement. -/
def sortStrings (ids : List String) : List String :=
  ids.insertionSort (fun a b => a.data ≤ b.data)

/-- Function `combineAPIPackages`. `Except.error` is the return `nil, err`. Every id of
`pkgIds` is a key of `pkgMap` (`Inv.ids_iff`), so `pkgMap[id]` is never `nil`. -/
def combineAPIPackages (L : Lib) (pkgs : List Package) : Except String (List apiPackage) :=
  match combineLoop L pkgs { pkgMap := fun _ => none, pkgIds := [] } with
  | .error err => .error err
  | .ok st => .ok (sortPackages ((sortStrings st.pkgIds).filterMap st.pkgMap))

/-- A model of gengo's `types.ExtractCommentTags` for lines of the form `+key=value`,
used to run the generator on concrete packages. -/
def tagValues (marker : String) (lines : List String) (key : String) : List String :=
  lines.filterMap (fun line =>
    let pre := (marker ++ key ++ "=").data
    if pre.isPrefixOf line.data then some (String.mk (line.data.drop pre.length)) else none)

/-- A library instance for concrete runs: no pattern compiles, quoting adds the two
quotation marks. -/
def demoLib : Lib :=
  { ExtractCommentTags := tagValues,
    Quote := fun s => "\"" ++ s ++ "\"",
    Compile := fun _ => none }

/-- A source package with the given group marker, name, types and constants. -/
def sourcePackage (path group name : String) (types consts : List (String × TypeRef)) :
    Package :=
  { Path := path, SourcePath := path, Name := name, DocComments := [],
    Comments := ["+groupName=" ++ group], Types := types, Constants := consts }

/-- The grouping key of a source package: what `apiVersionForPackage` returns for it
when the name is a version. -/
def sourceKey (L : Lib) (pkg : Package) : String × String :=
  (groupName L pkg, pkg.Name)

/-- The grouping key of an `apiPackage`. -/
def apiPackage.key (ap : apiPackage) : String × String :=
  (ap.apiGroup, ap.apiVersion)

/-- Strict ascending order of `(group, version)` pairs, the group compared first. -/
def keyLT (a b : String × String) : Prop :=
  a.1 < b.1 ∨ (a.1 = b.1 ∧ a.2 < b.2)

/-- A non-empty run of characters of `cs`. -/
def isDigitsOf (cs x : List Char) : Prop :=
  x ≠ [] ∧ ∀ c ∈ x, c ∈ cs

/-- A non-empty run of ASCII digits. -/
def isDigits (x : List Char) : Prop :=
  isDigitsOf asciiDigits x

/-- The shape of a version in words: "v", one or more digits, then nothing or "alpha"
or "beta" followed by one or more digits. -/
def isVersionShape (s : List Char) : Prop :=
  ∃ d, isDigits d ∧
    (s = 'v' :: d ∨
      ∃ e, isDigits e ∧ (s = 'v' :: d ++ "alpha".data ++ e ∨ s = 'v' :: d ++ "beta".data ++ e))

/-- The map key under which `combineAPIPackages` files a source package. -/
def sourceId (L : Lib) (pkg : Package) : String :=
  groupName L pkg ++ "/" ++ pkg.Name

/-- The types that the source packages `ps` contribute, in processing order. -/
def contributedTypes (ps : List Package) : List TypeRef :=
  ps.flatMap (fun p => flattenTypes p.Types)

/-- The state of the loop of `combineAPIPackages` after the packages `done`. -/
structure Inv (L : Lib) (done : List Package) (st : CombineState) : Prop where
  valid : ∀ p ∈ done, matchVersion p.Name = true
  nodup : st.pkgIds.Nodup
  ids_iff : ∀ id, id ∈ st.pkgIds ↔ ∃ v, st.pkgMap id = some v
  ids_src : ∀ id, id ∈ st.pkgIds ↔ ∃ p ∈ done, sourceId L p = id
  entry : ∀ id v, st.pkgMap id = some v →
    v.GoPackages = done.filter (fun p => sourceId L p = id) ∧
    v.Types = contributedTypes v.GoPackages ∧
    ∃ p ∈ done, sourceId L p = id ∧ v.apiGroup = groupName L p ∧ v.apiVersion = p.Name

/-- Two source packages of one group and version, and a third of another group. -/
def demoP1 : Package := sourcePackage "example.io/one/v1" "g" "v1" [("A", 1)] [("C1", 11)]

/-- The second source package of group `g`, version `v1`. -/
def demoP2 : Package := sourcePackage "example.io/two/v1" "g" "v1" [("B", 2)] [("C2", 12)]

/-- A source package of group `a`, version `v1beta1`. -/
def demoP3 : Package := sourcePackage "example.io/three/v1beta1" "a" "v1beta1" [("X", 3)] []

/-! ## `cmd/renderer.go` and the helpers of `cmd/parser.go` it uses -/

/-- The struct `externalPackage`. -/
structure externalPackage where
  TypeMatchPrefix : String
  DocsURLTemplate : String
  deriving DecidableEq, Repr

/-- The struct `GeneratorConfig`. `TypeDisplayNamePrefixOverrides` is a Go map that the
code only ranges over: its entries in the order `range` visits them. -/
structure GeneratorConfig where
  HiddenMemberFields : List String
  HideTypePatterns : List String
  ExternalPackages : List externalPackage
  TypeDisplayNamePrefixOverrides : List (String × String)
  MarkdownDisabled : Bool
  PreserveTrailingWhitespace : Bool
  GitCommitDisabled : Bool
  deriving DecidableEq, Repr

/-- The loop `for t.Elem != nil { t = t.Elem }`, run for at most `n` rounds. -/
def derefLoop (h : Heap) : Nat → TypeRef → TypeRef
  | 0, t => t
  | n + 1, t =>
    match (h.type t).Elem with
    | none => t
    | some e => derefLoop h n e

/-- Function `tryDereference`. The `Elem` chain of `t` has at most `h.elemDepth t` links,
so the loop ends at a type without `Elem` (`tryDereference_elem`,
`tryDereference_unfold`). -/
def tryDereference (h : Heap) (t : TypeRef) : TypeRef :=
  derefLoop h (h.elemDepth t) t

/-- The loop of `finalUnderlyingTypeOf`, run for at most `n` rounds. -/
def underlyingLoop (h : Heap) : Nat → TypeRef → TypeRef
  | 0, t => t
  | n + 1, t =>
    match (h.type t).Underlying with
    | none => t
    | some u => underlyingLoop h n u

/-- Function `finalUnderlyingTypeOf`. -/
def finalUnderlyingTypeOf (h : Heap) (t : TypeRef) : TypeRef :=
  underlyingLoop h (h.underDepth t) t

/-- Function `typeIdentifier`. -/
def typeIdentifier (h : Heap) (t : TypeRef) : String :=
  (h.type (tryDereference h t)).Name.String

/-- Function `isLocalType`; `typePkgMap k` is `none` when `k` is not a key. -/
def isLocalType (h : Heap) (t : TypeRef) (typePkgMap : TypeRef → Option apiPackage) : Bool :=
  (typePkgMap (tryDereference h t)).isSome

/-- Function `extractTypeToPackageMap`. -/
def extractTypeToPackageMap (pkgs : List apiPackage) : TypeRef → Option apiPackage :=
  pkgs.foldl (fun out ap =>
    let out := ap.Types.foldl (fun out t => fun k => if k = t then some ap else out k) out
    ap.Constants.foldl (fun out t => fun k => if k = t then some ap else out k) out)
    (fun _ => none)

/-- Function `findTypeReferences`: the three nested loops; `m[t] = append(m[t], typ)`
on a map whose missing keys read as the empty slice. -/
def findTypeReferences (h : Heap) (pkgs : List apiPackage) : TypeRef → List TypeRef :=
  pkgs.foldl (fun m pkg =>
    pkg.Types.foldl (fun m typ =>
      (h.type typ).Members.foldl (fun m member =>
        let t := tryDereference h member.Typ
        fun k => if k = t then m k ++ [typ] else m k) m) m)
    (fun _ => [])

/-- Whether `pat` occurs in the text. -/
def hasInfix (pat : List Char) : List Char → Bool
  | [] => pat.isEmpty
  | c :: cs => pat.isPrefixOf (c :: cs) || hasInfix pat cs

/-- Function `isExportedType`: some line has a match of
`\+(genclient|kubebuilder:object:root=true)`, that is, contains one of the two
literals. -/
def isExportedType (h : Heap) (t : TypeRef) : Bool :=
  (h.type t).SecondClosestCommentLines.any (fun line =>
    hasInfix "+genclient".data line.data ||
      hasInfix "+kubebuilder:object:root=true".data line.data)

/-- The first byte of the UTF-8 encoding of a character. -/
def firstByte (c : Char) : Nat :=
  let n := c.toNat
  if n < 0x80 then n
  else if n < 0x800 then 0xC0 + n / 0x40
  else if n < 0x10000 then 0xE0 + n / 0x1000
  else 0xF0 + n / 0x40000

/-- The library function `unicode.IsLower` on the runes up to U+00FF. -/
def isLowerLatin1 (b : Nat) : Bool :=
  (0x61 ≤ b && b ≤ 0x7A) || b == 0xB5 || (0xDF ≤ b && b ≤ 0xF6) || (0xF8 ≤ b && b ≤ 0xFF)

/-- The loop of `hideType` over `c.HideTypePatterns`; `none` is the panic of
`regexp.MustCompile` on a pattern that does not compile. -/
def matchesHidePattern (L : Lib) (name : String) : List String → Option Bool
  | [] => some false
  | pattern :: rest =>
    match L.Compile pattern with
    | none => none
    | some matchString =>
      if matchString name then some true else matchesHidePattern L name rest

/-- Function `hideType`; `none` is a panic: a pattern that does not compile, or
`t.Name.Name[0]` on an empty name. `t.Name.Name[0]` is the first byte of the name. -/
def hideType (L : Lib) (h : Heap) (t : TypeRef) (c : GeneratorConfig) : Option Bool :=
  match matchesHidePattern L (h.type t).Name.String c.HideTypePatterns with
  | none => none
  | some true => some true
  | some false =>
    if !isExportedType h t then
      match (h.type t).Name.Name.data with
      | [] => none
      | ch :: _ => some (isLowerLatin1 (firstByte ch))
    else some false

/-- The comparison closure of `sortTypes`. -/
def typeLess (h : Heap) (t1 t2 : TypeRef) : Bool :=
  if isExportedType h t1 && !isExportedType h t2 then true
  else if !isExportedType h t1 && isExportedType h t2 then false
  else decide ((h.type t1).Name.String.data < (h.type t2).Name.String.data)

/-- An order that the Go runtime chooses: the order in which `range` visits the keys of
a map, or the order in which `sort.Slice`, which is not stable, meets elements that its
comparison does not separate. Any permutation may be chosen. -/
structure Shuffle where
  visit : List TypeRef → List TypeRef
  perm : ∀ l, (visit l).Perm l

/-- Function `sortTypes`: `sort.Slice` leaves a sorted arrangement; which one, among
those that differ in the order of tied elements, is the choice of `ρ`. -/
def sortTypes (ρ : Shuffle) (h : Heap) (typs : List TypeRef) : List TypeRef :=
  sliceStable (typeLess h) (ρ.visit typs)

/-- The first loop of `typeReferences`: the keys of the set `m`, each once; `none` when
`hideType` panics. -/
def visibleRefs (L : Lib) (h : Heap) (c : GeneratorConfig) :
    List TypeRef → List TypeRef → Option (List TypeRef)
  | [], m => some m
  | ref :: rest, m =>
    match hideType L h ref c with
    | none => none
    | some true => visibleRefs L h c rest m
    | some false => visibleRefs L h c rest (if ref ∈ m then m else m ++ [ref])

/-- Function `typeReferences`; `none` when `hideType` panics. -/
def typeReferences (L : Lib) (ρ : Shuffle) (h : Heap) (t : TypeRef) (c : GeneratorConfig)
    (references : TypeRef → List TypeRef) : Option (List TypeRef) :=
  match visibleRefs L h c (references t) [] with
  | none => none
  | some m => some (sortTypes ρ h (ρ.visit m))

/-- The library function `strings.TrimLeft(s, "*")`. -/
def trimLeftStars (s : String) : String :=
  String.mk (s.data.dropWhile (fun ch => ch == '*'))

/-- The library function `strings.Replace(s, old, new, 1)` on character lists: the
first occurrence of `old` is replaced. -/
def replaceFirst (old new : List Char) : List Char → List Char
  | [] => if old.isEmpty then new else []
  | ch :: s =>
    if old.isPrefixOf (ch :: s) then new ++ (ch :: s).drop old.length
    else ch :: replaceFirst old new s

/-- The loop of `typeDisplayName` over `c.TypeDisplayNamePrefixOverrides`. -/
def applyOverrides (s : String) : List (String × String) → String
  | [] => s
  | (pre, replacement) :: rest =>
    if pre.data.isPrefixOf s.data then
      applyOverrides (String.mk (replaceFirst pre.data replacement.data s.data)) rest
    else applyOverrides s rest

/-- Function `typeDisplayName`; `none` is the exit of `klog.Fatalf`. -/
def typeDisplayName (L : Lib) (h : Heap) (t : TypeRef) (c : GeneratorConfig)
    (typePkgMap : TypeRef → Option apiPackage) : Option String :=
  let s := typeIdentifier h t
  let s := if isLocalType h t typePkgMap then (h.type (tryDereference h t)).Name.Name else s
  let s := if (h.type t).Kind = Kind.Pointer then trimLeftStars s else s
  let finish : Option String :=
    let s := applyOverrides s c.TypeDisplayNamePrefixOverrides
    some (if (h.type t).Kind = Kind.Slice then "[]" ++ s else s)
  match (h.type t).Kind with
  | Kind.Struct | Kind.Interface | Kind.Alias | Kind.Pointer | Kind.Slice | Kind.Builtin =>
    finish
  | Kind.Unsupported => some ""
  | Kind.Map => some (h.type t).Name.Name
  | Kind.DeclarationOf =>
    match (h.type t).ConstValue with
    | some v =>
      let u := finalUnderlyingTypeOf h t
      if (h.type u).Kind = Kind.Builtin ∧ (h.type u).Name.Name = "string" then
        some (L.Quote v)
      else some v
    | none => none
  | _ => none

/-- The type that handles outside a finite heap point to. -/
def nilType : GoType :=
  { Name := ⟨"", "", ""⟩, Kind := Kind.Unknown, CommentLines := [],
    SecondClosestCommentLines := [], Members := [], Elem := none, Underlying := none,
    ConstValue := none }

/-- Every `Elem` and `Underlying` of the cells points to a cell further down. -/
def descends (cells : List GoType) : Bool :=
  (List.range cells.length).all (fun i =>
    (match (cells.getD i nilType).Elem with
      | none => true
      | some e => decide (e < i)) &&
    (match (cells.getD i nilType).Underlying with
      | none => true
      | some u => decide (u < i)))

/-- The heap whose cell `i` is the `i`-th type of the list. -/
def Heap.ofList (cells : List GoType) (ok : descends cells = true) : Heap where
  type := fun t => cells.getD t nilType
  elemDepth := fun t => t
  elem_lt := by
    intro t e he
    replace he : (cells.getD t nilType).Elem = some e := he
    show e < t
    by_cases ht : t < cells.length
    · have := List.all_eq_true.1 ok t (List.mem_range.2 ht)
      simp only [he, Bool.and_eq_true, decide_eq_true_eq] at this
      exact this.1
    · rw [List.getD_eq_default _ _ (not_lt.1 ht)] at he
      cases he
  underDepth := fun t => t
  under_lt := by
    intro t u hu
    replace hu : (cells.getD t nilType).Underlying = some u := hu
    show u < t
    by_cases ht : t < cells.length
    · have := List.all_eq_true.1 ok t (List.mem_range.2 ht)
      simp only [hu, Bool.and_eq_true, decide_eq_true_eq] at this
      exact this.2
    · rw [List.getD_eq_default _ _ (not_lt.1 ht)] at hu
      cases hu

/-- The order `range` and `sort.Slice` choose in the concrete runs: the given one. -/
def Shuffle.asGiven : Shuffle :=
  { visit := fun l => l, perm := fun l => List.Perm.refl l }

/-- A type of the given kind and name without members. -/
def plainType (pkg name : String) (kind : Kind) (elem : Option TypeRef) : GoType :=
  { Name := ⟨pkg, name, ""⟩, Kind := kind, CommentLines := [],
    SecondClosestCommentLines := [], Members := [], Elem := elem, Underlying := none,
    ConstValue := none }

/-- A struct with the given members. -/
def structType (pkg name : String) (members : List (String × TypeRef)) : GoType :=
  { Name := ⟨pkg, name, ""⟩, Kind := Kind.Struct, CommentLines := [],
    SecondClosestCommentLines := [],
    Members := members.map (fun m => ⟨m.1, false, [], "", m.2⟩),
    Elem := none, Underlying := none, ConstValue := none }

/-- A heap with a struct that refers to itself: cell 0 is the builtin `string`; cell 1
is `Node` with the members `name string`, `next *Node`, `items []Node` and
`peer *Peer`; cell 2 is `*Node`, cell 3 is `[]Node`; cell 4 is `Peer` with the member
`back *Node`, cell 5 is `*Peer`; cell 6 is the unexported struct `internalHelper` with
a member `n Node`; cell 7 is `map[string]Node`. -/
def demoHeap : Heap :=
  Heap.ofList
    [plainType "" "string" Kind.Builtin none,
     structType "example.io/v1" "Node" [("name", 0), ("next", 2), ("items", 3), ("peer", 5)],
     plainType "" "*example.io/v1.Node" Kind.Pointer (some 1),
     plainType "" "[]example.io/v1.Node" Kind.Slice (some 1),
     structType "example.io/v1" "Peer" [("back", 2)],
     plainType "" "*example.io/v1.Peer" Kind.Pointer (some 4),
     structType "example.io/v1" "internalHelper" [("n", 1)],
     plainType "" "map[string]example.io/v1.Node" Kind.Map (some 1)]
    (by decide)

/-- The `apiPackage` that holds the three structs of `demoHeap`. -/
def demoApiPackage : apiPackage :=
  ⟨"example.io", "v1", [], [1, 4, 6], []⟩

/-- A configuration without patterns and rules. -/
def demoConfig : GeneratorConfig :=
  { HiddenMemberFields := [], HideTypePatterns := [], ExternalPackages := [],
    TypeDisplayNamePrefixOverrides := [], MarkdownDisabled := false,
    PreserveTrailingWhitespace := false, GitCommitDisabled := false }

/-- The owners that `findTypeReferences` appends under the key `B` while it walks the
members of `typ`: one for each member whose dereferenced type is `B`. -/
def memberEdges (h : Heap) (B typ : TypeRef) : List TypeRef :=
  ((h.type typ).Members.filter (fun member => tryDereference h member.Typ = B)).map
    (fun _ => typ)

/-- The types of all packages, in the order `findTypeReferences` walks them. -/
def allTypes (pkgs : List apiPackage) : List TypeRef :=
  pkgs.flatMap (fun pkg => pkg.Types)

/-! ## Text functions: `safeIdentifier`, `fieldName`, links -/

/-- The data that `linkForType` hands to a docs URL template. -/
structure TemplateData where
  TypeIdentifier : String
  PackagePath : String
  PackageSegments : List String

/-- The functions that `linkForType` registers with a docs URL template. -/
structure TemplateFuncs where
  lower : String → String
  arrIndex : List String → Int → Option String

/-- Library functions on text. `ToLowerWide` is `unicode.ToLower` on the runes beyond
ASCII (the table `unicode.CaseRanges`); `StructTagGet tag key` is
`reflect.StructTag(tag).Get(key)`, the empty string when the key is absent;
`Template funcs text` is `template.New("").Funcs(funcs).Parse(text)`, `none` when the
text does not parse, and the parsed template maps its data to what `Execute` writes,
`none` when the execution fails. -/
structure TextLib where
  ToLowerWide : Char → Char
  StructTagGet : String → String → String
  Template : TemplateFuncs → String → Option (TemplateData → Option String)

/-- The characters from code point `lo` to code point `hi`. -/
def charRange (lo hi : Nat) : List Char :=
  (List.range (hi + 1 - lo)).map (fun i => Char.ofNat (lo + i))

/-- The class `[[:punct:]]` of Go's regexp, the ASCII punctuation: the code points
0x21 to 0x2F, 0x3A to 0x40, 0x5B to 0x60 and 0x7B to 0x7E. -/
def punctChars : List Char :=
  charRange 0x21 0x2F ++ charRange 0x3A 0x40 ++ charRange 0x5B 0x60 ++ charRange 0x7B 0x7E

/-- Whether a character is ASCII punctuation. -/
def isPunct (c : Char) : Bool :=
  decide (c ∈ punctChars)

/-- The variable `safeIDRegex`: the pattern `[[:punct:]]+`. -/
def safeIDRegex : RegularExpression Char :=
  oneOrMore (charClass punctChars)

/-- The length of the longest prefix of the text that the pattern matches, `none` when
it matches no prefix. -/
def longestPrefix (r : RegularExpression Char) : List Char → Option Nat
  | [] => if r.matchEpsilon then some 0 else none
  | c :: cs =>
    match longestPrefix (r.deriv c) cs with
    | some n => some (n + 1)
    | none => if r.matchEpsilon then some 0 else none

/-- The library method `ReplaceAllLiteralString` for a pattern that matches no empty
text and whose match at a position is the longest one there (as for `x+`): from left to
right, a match is replaced and the scan goes on behind it, any other character is
copied. `skip` counts the characters of the current match still to pass. -/
def replaceAllLiteral (r : RegularExpression Char) (repl : List Char) :
    Nat → List Char → List Char
  | _, [] => []
  | skip + 1, _ :: cs => replaceAllLiteral r repl skip cs
  | 0, c :: cs =>
    match longestPrefix r (c :: cs) with
    | some (n + 1) => repl ++ replaceAllLiteral r repl n cs
    | _ => c :: replaceAllLiteral r repl 0 cs

/-- The ASCII capital letters. -/
def upperLetters : List Char := "ABCDEFGHIJKLMNOPQRSTUVWXYZ".data

/-- The ASCII small letters. -/
def lowerLetters : List Char := "abcdefghijklmnopqrstuvwxyz".data

/-- The ASCII branch of `unicode.ToLower`: a capital becomes the small letter, any other
character stays. -/
def asciiLower (c : Char) : Char :=
  match (upperLetters.zip lowerLetters).lookup c with
  | some l => l
  | none => c

/-- The library function `unicode.ToLower`: an ASCII rune goes through `asciiLower`, a
rune beyond ASCII through the case table. -/
def toLowerRune (T : TextLib) (c : Char) : Char :=
  if c.toNat < 0x80 then asciiLower c else T.ToLowerWide c

/-- The library function `strings.ToLower`: `unicode.ToLower` on every rune. -/
def stringsToLower (T : TextLib) (s : String) : String :=
  String.mk (s.data.map (toLowerRune T))

/-- Function `safeIdentifier`. -/
def safeIdentifier (T : TextLib) (id : String) : String :=
  stringsToLower T (String.mk (replaceAllLiteral safeIDRegex "-".data 0 id.data))

/-- In the spec's words: the text with every maximal run of ASCII punctuation replaced
by a single hyphen. -/
def collapsePunctRuns : List Char → List Char
  | [] => []
  | c :: cs =>
    if isPunct c then '-' :: collapsePunctRuns (cs.dropWhile isPunct)
    else c :: collapsePunctRuns cs
termination_by s => s.length
decreasing_by
  · simp only [List.length_cons]
    exact Nat.lt_succ_of_le (List.dropWhile_sublist _).length_le
  · simp

/-- The method `identifier` of `apiPackage`. -/
def apiPackage.identifier (v : apiPackage) : String :=
  v.apiGroup ++ "/" ++ v.apiVersion

/-- Function `apiGroupForType`. -/
def apiGroupForType (h : Heap) (t : TypeRef) (typePkgMap : TypeRef → Option apiPackage) :
    String :=
  let t := tryDereference h t
  match typePkgMap t with
  | none => "<UNKNOWN_API_GROUP>"
  | some v => v.identifier

/-- Function `anchorIDForLocalType`. -/
def anchorIDForLocalType (T : TextLib) (h : Heap) (t : TypeRef)
    (typePkgMap : TypeRef → Option apiPackage) : String :=
  safeIdentifier T (apiGroupForType h t typePkgMap ++ "." ++ (h.type t).Name.Name)

/-- The 64-bit two's complement value of an integer: Go's `int` arithmetic. -/
def wrapInt (x : Int) : Int :=
  (x + 2 ^ 63) % 2 ^ 64 - 2 ^ 63

/-- The closure `arrIndex` of `linkForType`: `a[(len(a)+i)%len(a)]`; `none` is the
panic of a division by zero or of an index out of range. Go's `%` truncates. -/
def arrIndex (a : List String) (i : Int) : Option String :=
  if a.length = 0 then none
  else
    let k := Int.tmod (wrapInt ((a.length : Int) + i)) (a.length : Int)
    if k < 0 then none else a[k.toNat]?

/-- The library function `strings.Split(s, "/")` on character lists. -/
def splitSlash : List Char → List (List Char)
  | [] => [[]]
  | c :: cs =>
    if c = '/' then [] :: splitSlash cs
    else
      match splitSlash cs with
      | seg :: segs => (c :: seg) :: segs
      | [] => [[c]]

/-- The errors of `linkForType`, by the message they are wrapped in. -/
inductive LinkError where
  | patternFailedToCompile (pattern : String)
  | templateFailedToParse
  | templateExecutionError
  deriving DecidableEq, Repr

/-- The function map that `linkForType` registers: `lower` and `arrIndex`. -/
def templateFuncs (T : TextLib) : TemplateFuncs :=
  { lower := stringsToLower T, arrIndex := arrIndex }

/-- The data that `linkForType` executes a template on, for the dereferenced type. -/
def templateData (h : Heap) (t : TypeRef) : TemplateData :=
  { TypeIdentifier := (h.type t).Name.Name,
    PackagePath := (h.type t).Name.Package,
    PackageSegments := (splitSlash (h.type t).Name.Package.data).map String.mk }

/-- The loop of `linkForType` over `c.ExternalPackages`, for the dereferenced type `t`
with identifier `id`; behind the loop the function returns the empty link. -/
def externalLink (L : Lib) (T : TextLib) (h : Heap) (t : TypeRef) (id : String) :
    List externalPackage → Except LinkError String
  | [] => .ok ""
  | v :: rest =>
    match L.Compile v.TypeMatchPrefix with
    | none => .error (LinkError.patternFailedToCompile v.TypeMatchPrefix)
    | some matchString =>
      if matchString id then
        match T.Template (templateFuncs T) v.DocsURLTemplate with
        | none => .error LinkError.templateFailedToParse
        | some tpl =>
          match tpl (templateData h t) with
          | none => .error LinkError.templateExecutionError
          | some b => .ok b
      else externalLink L T h t id rest

/-- Function `linkForType`. -/
def linkForType (L : Lib) (T : TextLib) (h : Heap) (t : TypeRef) (c : GeneratorConfig)
    (typePkgMap : TypeRef → Option apiPackage) : Except LinkError String :=
  let t := tryDereference h t
  if isLocalType h t typePkgMap then
    .ok ("#" ++ anchorIDForLocalType T h t typePkgMap)
  else if (h.type t).Kind = Kind.Struct ∨ (h.type t).Kind = Kind.Pointer ∨
      (h.type t).Kind = Kind.Interface ∨ (h.type t).Kind = Kind.Alias then
    externalLink L T h t (typeIdentifier h t) c.ExternalPackages
  else .ok ""

/-- Function `visibleTypes`; `none` when `hideType` panics. -/
def visibleTypes (L : Lib) (h : Heap) (c : GeneratorConfig) :
    List TypeRef → Option (List TypeRef)
  | [] => some []
  | t :: rest =>
    match hideType L h t c with
    | none => none
    | some hidden =>
      match visibleTypes L h c rest with
      | none => none
      | some out => some (if hidden then out else t :: out)

/-- Function `constantsOfType`. -/
def constantsOfType (ρ : Shuffle) (h : Heap) (t : TypeRef) (pkg : apiPackage) :
    List TypeRef :=
  sortTypes ρ h (pkg.Constants.filter (fun c => (h.type c).Underlying = some t))

/-- The library function `strings.TrimSuffix`. -/
def trimSuffix (s suffix : String) : String :=
  if suffix.data.isSuffixOf s.data then
    String.mk (s.data.take (s.data.length - suffix.data.length))
  else s

/-- Function `fieldName`. -/
def fieldName (T : TextLib) (m : Member) : String :=
  let v := T.StructTagGet m.Tags "json"
  let v := trimSuffix v ",omitempty"
  let v := trimSuffix v ",inline"
  if v ≠ "" ∧ v ≠ "-" then v else m.Name

/-- Function `fieldEmbedded`. -/
def fieldEmbedded (T : TextLib) (m : Member) : Bool :=
  hasInfix ",inline".data (T.StructTagGet m.Tags "json").data

/-- A text library for concrete runs: the case table beyond ASCII is left out, a struct
tag is read when it is the single entry `key:"value"`, no template parses. -/
def demoText : TextLib :=
  { ToLowerWide := fun c => c,
    StructTagGet := fun tag key =>
      let pre := (key ++ ":\"").data
      if pre.isPrefixOf tag.data ∧ "\"".data.isSuffixOf tag.data ∧
          pre.length + 1 ≤ tag.data.length then
        String.mk ((tag.data.drop pre.length).take (tag.data.length - pre.length - 1))
      else "",
    Template := fun _ _ => none }

/-- The characters with a meaning of their own in a pattern. -/
def metaChars : List Char :=
  [0x2E, 0x2A, 0x2B, 0x3F, 0x28, 0x29, 0x5B, 0x5D, 0x7B, 0x7D, 0x7C, 0x5E, 0x24, 0x5C].map
    Char.ofNat

/-- The text that a pattern without operators stands for: a backslash makes the next
character literal; `none` when an operator occurs. -/
def unescapeLiteral : List Char → Option (List Char)
  | [] => some []
  | c :: cs =>
    if c = Char.ofNat 0x5C then
      match cs with
      | d :: ds => if d ∈ metaChars then (unescapeLiteral ds).map (fun l => d :: l) else none
      | [] => none
    else if c ∈ metaChars then none
    else (unescapeLiteral cs).map (fun l => c :: l)

/-- A pattern compiler for concrete runs: it compiles the patterns `^literal`, which
match the texts that begin with the literal. -/
def compileAnchoredLiteral (pattern : String) : Option (String → Bool) :=
  match pattern.data with
  | c :: body =>
    if c = '^' then (unescapeLiteral body).map (fun lit s => lit.isPrefixOf s.data)
    else none
  | [] => none

/-- A piece of a parsed template: a character of text or the action `.Field`. -/
inductive Piece where
  | text (c : Char)
  | field (name : String)
  deriving DecidableEq, Repr

/-- The pieces of a template text whose braces all belong to actions of the form
`.Field` between double braces; the first argument holds the field name read so far. -/
def scanTemplate : Option (List Char) → List Char → Option (List Piece)
  | none, [] => some []
  | some _, [] => none
  | none, c :: rest =>
    if c = Char.ofNat 0x7B then
      match rest with
      | d :: e :: rest' =>
        if d = Char.ofNat 0x7B ∧ e = '.' then scanTemplate (some []) rest' else none
      | _ => none
    else (scanTemplate none rest).map (fun ps => Piece.text c :: ps)
  | some acc, c :: rest =>
    if c = Char.ofNat 0x7D then
      match rest with
      | d :: rest' =>
        if d = Char.ofNat 0x7D then
          (scanTemplate none rest').map (fun ps => Piece.field (String.mk acc.reverse) :: ps)
        else none
      | [] => none
    else scanTemplate (some (c :: acc)) rest

/-- What a parsed template writes for its data; `none` for a field that is neither
`TypeIdentifier` nor `PackagePath`. -/
def renderPieces (data : TemplateData) : List Piece → Option String
  | [] => some ""
  | Piece.text c :: ps => (renderPieces data ps).map (fun s => String.mk (c :: s.data))
  | Piece.field name :: ps =>
    if name = "TypeIdentifier" then
      (renderPieces data ps).map (fun s => data.TypeIdentifier ++ s)
    else if name = "PackagePath" then
      (renderPieces data ps).map (fun s => data.PackagePath ++ s)
    else none

/-- A text library for concrete runs with a template engine for the actions
`.TypeIdentifier` and `.PackagePath`. -/
def docsText : TextLib :=
  { demoText with
    Template := fun _ text =>
      (scanTemplate none text.data).map (fun ps data => renderPieces data ps) }

/-- A library for concrete runs that compiles the patterns `^literal`. -/
def docsLib : Lib :=
  { demoLib with Compile := compileAnchoredLiteral }

/-- A named type with an underlying type. -/
def namedType (pkg name : String) (kind : Kind) (underlying : Option TypeRef)
    (value : Option String) : GoType :=
  { Name := ⟨pkg, name, ""⟩, Kind := kind, CommentLines := [],
    SecondClosestCommentLines := [], Members := [], Elem := none,
    Underlying := underlying, ConstValue := value }

/-- A heap with local and external types: cell 0 is the external struct
`k8s.io/api/core/v1.Container` and cell 1 a pointer to it; cell 2 is the builtin
`string`; cell 3 is the local struct `Deployment` and cell 4 a slice of it; cell 5 is
the alias `Phase` of `string` and cell 6 the alias `Mode`; cell 7 is a second
declaration equal to cell 5 in every field; cells 8 to 11 are the constants
`PhaseRunning` and `PhaseDone` of `Phase` (cell 5), `ModeFast` of `Mode` and
`PhaseOther` of the declaration in cell 7; cell 12 is the struct `ünit` and cell 13
the struct `internalHelper`, both without export marker; cell 14 is the struct `Widget`
with the marker `+genclient`. -/
def docsHeap : Heap :=
  Heap.ofList
    [plainType "k8s.io/api/core/v1" "Container" Kind.Struct none,
     plainType "" "*k8s.io/api/core/v1.Container" Kind.Pointer (some 0),
     plainType "" "string" Kind.Builtin none,
     plainType "example.io/apps/v1" "Deployment" Kind.Struct none,
     plainType "" "[]example.io/apps/v1.Deployment" Kind.Slice (some 3),
     namedType "example.io/apps/v1" "Phase" Kind.Alias (some 2) none,
     namedType "example.io/apps/v1" "Mode" Kind.Alias (some 2) none,
     namedType "example.io/apps/v1" "Phase" Kind.Alias (some 2) none,
     namedType "example.io/apps/v1" "PhaseRunning" Kind.DeclarationOf (some 5) (some "Running"),
     namedType "example.io/apps/v1" "PhaseDone" Kind.DeclarationOf (some 5) (some "Done"),
     namedType "example.io/apps/v1" "ModeFast" Kind.DeclarationOf (some 6) (some "Fast"),
     namedType "example.io/apps/v1" "PhaseOther" Kind.DeclarationOf (some 7) (some "Other"),
     plainType "example.io/apps/v1" "ünit" Kind.Struct none,
     plainType "example.io/apps/v1" "internalHelper" Kind.Struct none,
     { plainType "example.io/apps/v1" "Widget" Kind.Struct none with
       SecondClosestCommentLines := ["+genclient"] }]
    (by decide)

/-- The `apiPackage` of the local types and constants of `docsHeap`. -/
def docsApiPackage : apiPackage :=
  ⟨"apps.example.io", "v1", [], [3, 5, 6, 12, 13, 14], [8, 9, 10, 11]⟩

/-- The rule of the spec's example: types of `k8s.io/api/core/v1`. -/
def coreRule : externalPackage :=
  { TypeMatchPrefix := "^k8s\\.io/api/core/v1\\.",
    DocsURLTemplate := "https://pkg.example/\x7b\x7b.PackagePath\x7d\x7d#\x7b\x7b.TypeIdentifier\x7d\x7d" }

/-- A rule that matches no type of `docsHeap`. -/
def otherRule : externalPackage :=
  { TypeMatchPrefix := "^example\\.org/",
    DocsURLTemplate := "https://example.org/\x7b\x7b.TypeIdentifier\x7d\x7d" }

/-- A second rule that matches the types of `k8s.io`. -/
def wideRule : externalPackage :=
  { TypeMatchPrefix := "^k8s\\.io/",
    DocsURLTemplate := "https://k8s.example/\x7b\x7b.TypeIdentifier\x7d\x7d" }

/-- The name that `typeDisplayName` starts from: the local name of the dereferenced type
when that type is in the index, else its fully qualified identifier. -/
def displayBase (h : Heap) (t : TypeRef) (typePkgMap : TypeRef → Option apiPackage) :
    String :=
  if isLocalType h t typePkgMap then (h.type (tryDereference h t)).Name.Name
  else typeIdentifier h t

/-- In the spec's words: with an override `(p, r)` and a name that starts with `p`, `r`
followed by the name without its leading `p`; else the name itself. -/
def withOverride (b : String) : Option (String × String) → String
  | none => b
  | some (p, r) =>
    if p.data.isPrefixOf b.data then String.mk (r.data ++ b.data.drop p.data.length) else b

/-- Whether the compiled pattern matches the name; false for a pattern that does not
compile. -/
def patternMatches (L : Lib) (name pattern : String) : Bool :=
  match L.Compile pattern with
  | some matchString => matchString name
  | none => false

/-- The modifier suffixes after which `fieldName` returns the bare name. -/
def strippedTails : List String :=
  ["", ",omitempty", ",inline", ",inline,omitempty"]

/-- A member with the given name and struct tag. -/
def taggedMember (name tags : String) : Member :=
  { Name := name, Embedded := false, CommentLines := [], Tags := tags, Typ := 0 }

/-! ## `cmd/main.go` -/

/-- The class `\s` of Go's regexp: tab, newline, form feed, carriage return, space. -/
def whitespaceChars : List Char :=
  [0x09, 0x0A, 0x0C, 0x0D, 0x20].map Char.ofNat

/-- The part `\s+` of the pattern `(?m)^\s+` of `generateDoc`. -/
def lineStartSpace : RegularExpression Char :=
  oneOrMore (charClass whitespaceChars)

/-- The newline character. -/
def newline : Char := Char.ofNat 0x0A

/-- The library method `ReplaceAllString` for the pattern `(?m)^` followed by `r`, where
`r` matches no empty text, its match at a position is the longest one there, and the
replacement holds no `$`: under the flag `m` a match starts at the beginning of the
text or right behind a newline; a match is replaced and the scan goes on behind it, any
other character is copied. `skip` counts the characters of the current match still to
pass, `atStart` says whether the position is the beginning of a line. -/
def replaceAllAtLineStart (r : RegularExpression Char) (repl : List Char) :
    Nat → Bool → List Char → List Char
  | _, _, [] => []
  | skip + 1, _, c :: cs => replaceAllAtLineStart r repl skip (c == newline) cs
  | 0, atStart, c :: cs =>
    if atStart then
      match longestPrefix r (c :: cs) with
      | some (n + 1) => repl ++ replaceAllAtLineStart r repl n (c == newline) cs
      | _ => c :: replaceAllAtLineStart r repl 0 (c == newline) cs
    else c :: replaceAllAtLineStart r repl 0 (c == newline) cs

/-- Function `generateDoc`. `render` is the call `Render(&b, apiPackages, config)`: the
text written to the buffer, or the error. -/
def generateDoc (render : List apiPackage → GeneratorConfig → Except String String)
    (apiPackages : List apiPackage) (config : GeneratorConfig) : Except String String :=
  match render apiPackages config with
  | .error err => .error ("failed to render the result: " ++ err)
  | .ok b =>
    if config.PreserveTrailingWhitespace then .ok b
    else .ok (String.mk (replaceAllAtLineStart lineStartSpace [] 0 true b.data))

/-- In the spec's words: the lines of a text, split at the newlines. -/
def linesOf : List Char → List (List Char)
  | [] => [[]]
  | c :: cs =>
    if c = newline then [] :: linesOf cs
    else
      match linesOf cs with
      | line :: rest => (c :: line) :: rest
      | [] => [[c]]

/-- In the spec's words: a line with its trailing spaces and tabs deleted. -/
def trimLineEnd (line : List Char) : List Char :=
  (line.reverse.dropWhile (fun c => c = ' ' ∨ c = Char.ofNat 0x09)).reverse

/-- In the spec's words: the text with the trailing spaces and tabs of every line
deleted. -/
def withoutTrailingSpace (text : List Char) : List Char :=
  List.intercalate [newline] ((linesOf text).map trimLineEnd)

/-- A renderer that writes the given text. -/
def renderText (text : String) : List apiPackage → GeneratorConfig → Except String String :=
  fun _ _ => .ok text

/-- A rendered text with indentation, trailing spaces, a trailing tab and an empty
line. -/
def renderedSample : String := "<p>\n  a  \n\n  b\t\n</p>\n"

/-- Whether the override `e` applies to the name: the name starts with its prefix. -/
def overrideApplies (s : String) (e : String × String) : Bool :=
  e.1.data.isPrefixOf s.data

/-- The name after the override `e` is applied to it. -/
def overridden (s : String) (e : String × String) : String :=
  String.mk (replaceFirst e.1.data e.2.data s.data)

/-! ## Lemmas -/

theorem str_lt_iff (a b : String) : a.data < b.data ↔ a < b :=
  String.lt_iff_toList_lt.symm

theorem packageLess_false_iff (a b : apiPackage) : packageLess b a = false ↔ keyLE a b := by
  unfold packageLess keyLE
  by_cases h : b.apiGroup = a.apiGroup
  · simp only [h, ne_eq, not_true_eq_false, ite_false, decide_eq_false_iff_not, str_lt_iff,
      not_lt, lt_self_iff_false, false_or, true_and]
  · have h' : a.apiGroup ≠ b.apiGroup := fun e => h e.symm
    simp only [ne_eq, h, not_false_eq_true, ite_true, decide_eq_false_iff_not, str_lt_iff,
      not_lt, h', false_and, or_false]
    exact ⟨fun hle => lt_of_le_of_ne hle h', le_of_lt⟩

theorem keyLE_total (a b : apiPackage) : keyLE a b ∨ keyLE b a := by
  unfold keyLE
  rcases lt_trichotomy a.apiGroup b.apiGroup with h | h | h
  · exact Or.inl (Or.inl h)
  · rcases le_total a.apiVersion b.apiVersion with h2 | h2
    · exact Or.inl (Or.inr ⟨h, h2⟩)
    · exact Or.inr (Or.inr ⟨h.symm, h2⟩)
  · exact Or.inr (Or.inl h)

theorem keyLE_trans {a b c : apiPackage} (h1 : keyLE a b) (h2 : keyLE b c) : keyLE a c := by
  unfold keyLE at *
  rcases h1 with h1 | ⟨e1, h1⟩ <;> rcases h2 with h2 | ⟨e2, h2⟩
  · exact Or.inl (lt_trans h1 h2)
  · exact Or.inl (e2 ▸ h1)
  · exact Or.inl (e1 ▸ h2)
  · exact Or.inr ⟨e1.trans e2, le_trans h1 h2⟩

theorem sortPackages_perm (pkgs : List apiPackage) : (sortPackages pkgs).Perm pkgs :=
  List.perm_insertionSort _ pkgs

theorem sortPackages_sorted (pkgs : List apiPackage) :
    List.Sorted keyLE (sortPackages pkgs) := by
  have hrel : (fun a b : apiPackage => packageLess b a = false) = keyLE := by
    funext a b
    exact propext (packageLess_false_iff a b)
  haveI : IsTotal apiPackage (fun a b => packageLess b a = false) :=
    ⟨fun a b => by simpa only [packageLess_false_iff] using keyLE_total a b⟩
  haveI : IsTrans apiPackage (fun a b => packageLess b a = false) :=
    ⟨fun a b c h1 h2 => by
      simp only [packageLess_false_iff] at *
      exact keyLE_trans h1 h2⟩
  have h := List.sorted_insertionSort (fun a b : apiPackage => packageLess b a = false) pkgs
  unfold sortPackages sliceStable
  exact hrel ▸ h

theorem mem_charClass (cs x : List Char) :
    x ∈ (charClass cs).matches' ↔ ∃ c ∈ cs, x = [c] := by
  induction cs with
  | nil => simp [charClass]
  | cons a cs ih =>
    have hunf : charClass (a :: cs) = RegularExpression.char a + charClass cs := rfl
    rw [hunf, RegularExpression.matches'_add, Language.mem_add, ih,
      RegularExpression.matches'_char]
    constructor
    · rintro (h | ⟨c, hc, rfl⟩)
      · exact ⟨a, List.mem_cons_self _ _, h⟩
      · exact ⟨c, List.mem_cons_of_mem _ hc, rfl⟩
    · rintro ⟨c, hc, rfl⟩
      rcases List.mem_cons.1 hc with rfl | hc
      · exact Or.inl rfl
      · exact Or.inr ⟨c, hc, rfl⟩

theorem mem_literal (cs x : List Char) : x ∈ (literal cs).matches' ↔ x = cs := by
  induction cs generalizing x with
  | nil => simp [literal, Language.mem_one]
  | cons a cs ih =>
    have hunf : literal (a :: cs) = RegularExpression.char a * literal cs := rfl
    rw [hunf, RegularExpression.matches'_mul, Language.mem_mul, RegularExpression.matches'_char]
    constructor
    · rintro ⟨u, hu, w, hw, rfl⟩
      have hu' : u = [a] := hu
      rw [hu', (ih w).1 hw]
      rfl
    · rintro rfl
      exact ⟨[a], rfl, cs, (ih cs).2 rfl, rfl⟩

theorem mem_oneOrMore_class (cs x : List Char) :
    x ∈ (oneOrMore (charClass cs)).matches' ↔ isDigitsOf cs x := by
  unfold oneOrMore isDigitsOf
  rw [RegularExpression.matches'_mul, Language.mem_mul, RegularExpression.matches'_star]
  constructor
  · rintro ⟨u, hu, w, hw, rfl⟩
    obtain ⟨c, hc, rfl⟩ := (mem_charClass cs u).1 hu
    obtain ⟨S, rfl, hS⟩ := Language.mem_kstar.1 hw
    refine ⟨by simp, ?_⟩
    intro d hd
    rcases List.mem_cons.1 hd with rfl | hd
    · exact hc
    · obtain ⟨y, hy, hdy⟩ := List.mem_flatten.1 hd
      obtain ⟨c', hc', rfl⟩ := (mem_charClass cs y).1 (hS y hy)
      rcases List.mem_singleton.1 hdy with rfl
      exact hc'
  · rintro ⟨hne, hall⟩
    cases x with
    | nil => exact absurd rfl hne
    | cons c rest =>
      refine ⟨[c], (mem_charClass cs [c]).2 ⟨c, hall c (List.mem_cons_self _ _), rfl⟩, rest, ?_, rfl⟩
      refine Language.mem_kstar.2 ⟨rest.map (fun d => [d]), ?_, ?_⟩
      · clear hne hall
        induction rest with
        | nil => rfl
        | cons b t ih => simp [List.flatten] at ih ⊢; exact ih
      · intro y hy
        obtain ⟨d, hd, rfl⟩ := List.mem_map.1 hy
        exact (mem_charClass cs [d]).2 ⟨d, hall d (List.mem_cons_of_mem _ hd), rfl⟩

theorem mem_versionPattern (x : List Char) :
    x ∈ versionPattern.matches' ↔ isVersionShape x := by
  unfold versionPattern optional isVersionShape isDigits
  simp only [RegularExpression.matches'_mul, RegularExpression.matches'_add,
    RegularExpression.matches'_epsilon, RegularExpression.matches'_char, Language.mem_mul,
    Language.mem_add, Language.mem_one, mem_oneOrMore_class, mem_literal]
  constructor
  · rintro ⟨a, ⟨a1, ha1, d, hd, rfl⟩, b, hb, rfl⟩
    have ha1' : a1 = ['v'] := ha1
    subst ha1'
    refine ⟨d, hd, ?_⟩
    rcases hb with rfl | ⟨w, hw, e, he, rfl⟩
    · left; simp
    · right
      refine ⟨e, he, ?_⟩
      rcases hw with rfl | rfl
      · left; simp
      · right; simp
  · rintro ⟨d, hd, rfl | ⟨e, he, rfl | rfl⟩⟩
    · exact ⟨'v' :: d, ⟨['v'], rfl, d, hd, rfl⟩, [], Or.inl rfl, by simp⟩
    · exact ⟨'v' :: d, ⟨['v'], rfl, d, hd, rfl⟩, "alpha".data ++ e,
        Or.inr ⟨"alpha".data, Or.inl rfl, e, he, rfl⟩, by simp⟩
    · exact ⟨'v' :: d, ⟨['v'], rfl, d, hd, rfl⟩, "beta".data ++ e,
        Or.inr ⟨"beta".data, Or.inr rfl, e, he, rfl⟩, by simp⟩

theorem matchVersion_iff (s : String) : matchVersion s = true ↔ isVersionShape s.data := by
  unfold matchVersion
  rw [RegularExpression.rmatch_iff_matches', mem_versionPattern]

theorem isDigits_no_slash {d : List Char} (hd : isDigits d) : '/' ∉ d := by
  intro h
  have := hd.2 _ h
  revert this
  decide

theorem isVersionShape_no_slash {x : List Char} (h : isVersionShape x) : '/' ∉ x := by
  obtain ⟨d, hd, rfl | ⟨e, he, rfl | rfl⟩⟩ := h
  · intro hm
    rcases List.mem_cons.1 hm with h1 | h1
    · exact absurd h1 (by decide)
    · exact isDigits_no_slash hd h1
  · intro hm
    simp only [List.cons_append, List.mem_cons, List.mem_append] at hm
    rcases hm with h1 | (h1 | h1) | h1
    · exact absurd h1 (by decide)
    · exact isDigits_no_slash hd h1
    · revert h1; decide
    · exact isDigits_no_slash he h1
  · intro hm
    simp only [List.cons_append, List.mem_cons, List.mem_append] at hm
    rcases hm with h1 | (h1 | h1) | h1
    · exact absurd h1 (by decide)
    · exact isDigits_no_slash hd h1
    · revert h1; decide
    · exact isDigits_no_slash he h1

theorem append_sep_inj {a : Char} :
    ∀ (l1 l2 r1 r2 : List Char), a ∉ r1 → a ∉ r2 → l1 ++ a :: r1 = l2 ++ a :: r2 →
      l1 = l2 ∧ r1 = r2
  | [], [], r1, r2, _, _, h => ⟨rfl, by simpa using h⟩
  | [], b :: l2, r1, r2, h1, _, h => by
    exfalso
    simp only [List.nil_append, List.cons_append, List.cons.injEq] at h
    exact h1 (h.2 ▸ by simp)
  | b :: l1, [], r1, r2, _, h2, h => by
    exfalso
    simp only [List.nil_append, List.cons_append, List.cons.injEq] at h
    exact h2 (h.2 ▸ by simp)
  | b :: l1, c :: l2, r1, r2, h1, h2, h => by
    simp only [List.cons_append, List.cons.injEq] at h
    obtain ⟨hl, hr⟩ := append_sep_inj l1 l2 r1 r2 h1 h2 h.2
    exact ⟨by rw [h.1, hl], hr⟩

/-- The map key `group/version` determines group and version when the versions match the
version pattern. -/
theorem id_injective {g1 v1 g2 v2 : String} (h1 : matchVersion v1 = true)
    (h2 : matchVersion v2 = true) (h : g1 ++ "/" ++ v1 = g2 ++ "/" ++ v2) :
    g1 = g2 ∧ v1 = v2 := by
  have hd : g1.data ++ '/' :: v1.data = g2.data ++ '/' :: v2.data := by
    have := congrArg String.data h
    simpa using this
  obtain ⟨hg, hv⟩ := append_sep_inj _ _ _ _
    (isVersionShape_no_slash ((matchVersion_iff v1).1 h1))
    (isVersionShape_no_slash ((matchVersion_iff v2).1 h2)) hd
  exact ⟨String.ext hg, String.ext hv⟩

theorem combineStep_ok {L : Lib} {st st' : CombineState} {p : Package}
    (h : combineStep L st p = .ok st') :
    matchVersion p.Name = true ∧
    ((st.pkgMap (sourceId L p) = none ∧
      st' = { pkgMap := fun k => if k = sourceId L p then
                some { apiGroup := groupName L p, apiVersion := p.Name,
                       Types := flattenTypes p.Types,
                       Constants := flattenTypes p.Constants,
                       GoPackages := [p] }
              else st.pkgMap k,
              pkgIds := st.pkgIds ++ [sourceId L p] }) ∨
     (∃ v, st.pkgMap (sourceId L p) = some v ∧
      st' = { pkgMap := fun k => if k = sourceId L p then
                some { v with Types := v.Types ++ flattenTypes p.Types,
                              Constants := (v.Types ++ flattenTypes p.Types)
                                ++ flattenTypes p.Constants,
                              GoPackages := v.GoPackages ++ [p] }
              else st.pkgMap k,
              pkgIds := st.pkgIds })) := by
  unfold combineStep apiVersionForPackage at h
  by_cases hv : matchVersion p.Name = true
  · refine ⟨hv, ?_⟩
    simp only [hv, Bool.not_true, Bool.false_eq_true, ite_false] at h
    cases hm : st.pkgMap (sourceId L p) with
    | none =>
      left
      unfold sourceId at hm
      rw [hm] at h
      exact ⟨rfl, (Except.ok.inj h).symm⟩
    | some v =>
      right
      unfold sourceId at hm
      rw [hm] at h
      exact ⟨v, rfl, (Except.ok.inj h).symm⟩
  · simp only [Bool.not_eq_true] at hv
    simp [hv] at h

theorem combineStep_error_iff (L : Lib) (st : CombineState) (p : Package) :
    (∃ e, combineStep L st p = .error e) ↔ matchVersion p.Name = false := by
  constructor
  · rintro ⟨e, he⟩
    by_contra hv
    simp only [Bool.not_eq_false] at hv
    unfold combineStep apiVersionForPackage at he
    simp only [hv, Bool.not_true, Bool.false_eq_true, ite_false] at he
    split at he <;> cases he
  · intro hv
    unfold combineStep apiVersionForPackage
    simp [hv]

theorem Inv.init (L : Lib) : Inv L [] { pkgMap := fun _ => none, pkgIds := [] } where
  valid := by simp
  nodup := List.nodup_nil
  ids_iff := by simp
  ids_src := by simp
  entry := by simp

theorem Inv.step {L : Lib} {done : List Package} {st st' : CombineState} {p : Package}
    (hinv : Inv L done st) (h : combineStep L st p = .ok st') : Inv L (done ++ [p]) st' := by
  obtain ⟨hv, hcase⟩ := combineStep_ok h
  have hvalid : ∀ q ∈ done ++ [p], matchVersion q.Name = true := by
    intro q hq
    rcases List.mem_append.1 hq with hq | hq
    · exact hinv.valid q hq
    · rw [List.mem_singleton.1 hq]; exact hv
  rcases hcase with ⟨hm, rfl⟩ | ⟨v, hm, rfl⟩
  · -- a new key
    have hnew : sourceId L p ∉ st.pkgIds := by
      intro hin
      obtain ⟨v, hv'⟩ := (hinv.ids_iff _).1 hin
      rw [hm] at hv'
      cases hv'
    have hnone : ∀ q ∈ done, sourceId L q ≠ sourceId L p := by
      intro q hq he
      exact hnew ((hinv.ids_src _).2 ⟨q, hq, he⟩)
    refine ⟨hvalid, ?_, ?_, ?_, ?_⟩
    · exact List.Nodup.append hinv.nodup (List.nodup_singleton _)
        (by
          intro a ha hb
          rw [List.mem_singleton.1 hb] at ha
          exact hnew ha)
    · intro id
      by_cases hid : id = sourceId L p
      · simp [hid]
      · simp [hid, hinv.ids_iff id]
    · intro id
      simp only [List.mem_append, List.mem_singleton, hinv.ids_src id]
      constructor
      · rintro (⟨q, hq, he⟩ | rfl)
        · exact ⟨q, Or.inl hq, he⟩
        · exact ⟨p, Or.inr rfl, rfl⟩
      · rintro ⟨q, hq | rfl, he⟩
        · exact Or.inl ⟨q, hq, he⟩
        · exact Or.inr he.symm
    · intro id w hw
      by_cases hid : id = sourceId L p
      · subst hid
        simp only [if_true] at hw
        cases hw
        refine ⟨?_, ?_, p, by simp, rfl, rfl, rfl⟩
        · rw [List.filter_append]
          have : done.filter (fun q => decide (sourceId L q = sourceId L p)) = [] := by
            rw [List.filter_eq_nil_iff]
            intro q hq
            simpa using hnone q hq
          simp [this]
        · simp [contributedTypes]
      · simp only [hid, if_false] at hw
        obtain ⟨h1, h2, q, hq, h3⟩ := hinv.entry id w hw
        refine ⟨?_, h2, q, List.mem_append_left _ hq, h3⟩
        rw [List.filter_append, h1]
        have : sourceId L p ≠ id := fun e => hid e.symm
        simp [this]
  · -- a key seen before
    have hold : sourceId L p ∈ st.pkgIds := (hinv.ids_iff _).2 ⟨v, hm⟩
    refine ⟨hvalid, hinv.nodup, ?_, ?_, ?_⟩
    · intro id
      by_cases hid : id = sourceId L p
      · subst hid
        simp [hold]
      · simp [hid, hinv.ids_iff id]
    · intro id
      simp only [hinv.ids_src id, List.mem_append, List.mem_singleton]
      constructor
      · rintro ⟨q, hq, he⟩
        exact ⟨q, Or.inl hq, he⟩
      · rintro ⟨q, hq | rfl, he⟩
        · exact ⟨q, hq, he⟩
        · subst he
          exact (hinv.ids_src _).1 hold
    · intro id w hw
      by_cases hid : id = sourceId L p
      · subst hid
        simp only [if_true] at hw
        cases hw
        obtain ⟨h1, h2, q, hq, h3⟩ := hinv.entry _ v hm
        refine ⟨?_, ?_, q, List.mem_append_left _ hq, h3⟩
        · simp [List.filter_append, h1]
        · simp [contributedTypes, h2]
      · simp only [hid, if_false] at hw
        obtain ⟨h1, h2, q, hq, h3⟩ := hinv.entry id w hw
        refine ⟨?_, h2, q, List.mem_append_left _ hq, h3⟩
        rw [List.filter_append, h1]
        have : sourceId L p ≠ id := fun e => hid e.symm
        simp [this]

theorem Inv.loop {L : Lib} :
    ∀ (rest done : List Package) (st st' : CombineState), Inv L done st →
      combineLoop L rest st = .ok st' → Inv L (done ++ rest) st'
  | [], done, st, st', hinv, h => by
    simp only [combineLoop] at h
    cases h
    simpa using hinv
  | p :: rest, done, st, st', hinv, h => by
    simp only [combineLoop] at h
    cases hs : combineStep L st p with
    | error e => rw [hs] at h; cases h
    | ok st1 =>
      rw [hs] at h
      have := Inv.loop rest (done ++ [p]) st1 st' (hinv.step hs) h
      simpa using this

theorem combineLoop_error_iff (L : Lib) :
    ∀ (pkgs : List Package) (st : CombineState),
      (∃ e, combineLoop L pkgs st = .error e) ↔ ∃ p ∈ pkgs, matchVersion p.Name = false
  | [], st => by simp [combineLoop]
  | p :: rest, st => by
    simp only [combineLoop, List.mem_cons, exists_eq_or_imp]
    cases hs : combineStep L st p with
    | error e =>
      have := (combineStep_error_iff L st p).1 ⟨e, hs⟩
      simp [this]
    | ok st1 =>
      have hv := (combineStep_ok hs).1
      simp only [hv, Bool.true_eq_false, false_or]
      exact combineLoop_error_iff L rest st1

theorem map_filterMap_eq {α β : Type} (f : α → Option β) (g : β → α) :
    ∀ l : List α, (∀ x ∈ l, ∃ v, f x = some v ∧ g v = x) → (l.filterMap f).map g = l
  | [], _ => rfl
  | a :: l, h => by
    obtain ⟨v, hv, hg⟩ := h a (List.mem_cons_self _ _)
    rw [List.filterMap_cons_some hv, List.map_cons, hg,
      map_filterMap_eq f g l (fun x hx => h x (List.mem_cons_of_mem _ hx))]

theorem combine_ok_state {L : Lib} {pkgs : List Package} {out : List apiPackage}
    (h : combineAPIPackages L pkgs = .ok out) :
    ∃ st, Inv L pkgs st ∧
      out = sortPackages ((sortStrings st.pkgIds).filterMap st.pkgMap) := by
  unfold combineAPIPackages at h
  cases hl : combineLoop L pkgs { pkgMap := fun _ => none, pkgIds := [] } with
  | error e => rw [hl] at h; cases h
  | ok st =>
    rw [hl] at h
    refine ⟨st, ?_, (Except.ok.inj h).symm⟩
    have := Inv.loop pkgs [] _ st (Inv.init L) hl
    simpa using this

theorem sourceId_eq_iff {L : Lib} {p q : Package} (hp : matchVersion p.Name = true)
    (hq : matchVersion q.Name = true) :
    sourceId L p = sourceId L q ↔ sourceKey L p = sourceKey L q := by
  unfold sourceId sourceKey
  constructor
  · intro h
    obtain ⟨h1, h2⟩ := id_injective hp hq h
    rw [h1, h2]
  · intro h
    rw [(Prod.mk.inj h).1, (Prod.mk.inj h).2]

/-- What a successful run of `combineAPIPackages` returns. -/
theorem combine_spec {L : Lib} {pkgs : List Package} {out : List apiPackage}
    (h : combineAPIPackages L pkgs = .ok out) :
    (∀ p ∈ pkgs, matchVersion p.Name = true) ∧
    (out.map apiPackage.key).Nodup ∧
    List.Sorted keyLE out ∧
    (∀ k, k ∈ out.map apiPackage.key ↔ ∃ p ∈ pkgs, sourceKey L p = k) ∧
    (∀ ap ∈ out,
      ap.GoPackages = pkgs.filter (fun p => sourceKey L p = ap.key) ∧
      ap.Types = contributedTypes ap.GoPackages) := by
  obtain ⟨st, hinv, rfl⟩ := combine_ok_state h
  have hmem : ∀ ap, ap ∈ sortPackages ((sortStrings st.pkgIds).filterMap st.pkgMap) ↔
      ∃ id ∈ st.pkgIds, st.pkgMap id = some ap := by
    intro ap
    rw [(sortPackages_perm _).mem_iff, List.mem_filterMap]
    simp only [sortStrings, List.mem_insertionSort]
  have hkey : ∀ id ap, st.pkgMap id = some ap →
      ∃ p ∈ pkgs, sourceId L p = id ∧ sourceKey L p = ap.key := by
    intro id ap hap
    obtain ⟨_, _, p, hp, h1, h2, h3⟩ := hinv.entry id ap hap
    exact ⟨p, hp, h1, by simp [sourceKey, apiPackage.key, h2, h3]⟩
  refine ⟨hinv.valid, ?_, sortPackages_sorted _, ?_, ?_⟩
  · -- one entry per key
    refine ((sortPackages_perm _).map _).nodup_iff.2 ?_
    refine List.Nodup.of_map (fun k : String × String => k.1 ++ "/" ++ k.2) ?_
    rw [List.map_map]
    rw [map_filterMap_eq]
    · exact (List.perm_insertionSort _ _).nodup_iff.2 hinv.nodup
    · intro id hid
      have hid' : id ∈ st.pkgIds := (List.mem_insertionSort _).1 hid
      obtain ⟨v, hv⟩ := (hinv.ids_iff id).1 hid'
      obtain ⟨p, _, h1, h2⟩ := hkey id v hv
      refine ⟨v, hv, ?_⟩
      simp only [Function.comp, ← h2, sourceKey]
      exact h1
  · intro k
    rw [List.mem_map]
    constructor
    · rintro ⟨ap, hap, rfl⟩
      obtain ⟨id, _, hid⟩ := (hmem ap).1 hap
      obtain ⟨p, hp, _, h2⟩ := hkey id ap hid
      exact ⟨p, hp, h2⟩
    · rintro ⟨p, hp, rfl⟩
      have hin : sourceId L p ∈ st.pkgIds := (hinv.ids_src _).2 ⟨p, hp, rfl⟩
      obtain ⟨v, hv⟩ := (hinv.ids_iff _).1 hin
      obtain ⟨q, hq, h1, h2⟩ := hkey _ v hv
      refine ⟨v, (hmem v).2 ⟨_, hin, hv⟩, ?_⟩
      rw [← h2]
      exact (sourceId_eq_iff (hinv.valid q hq) (hinv.valid p hp)).1 h1
  · intro ap hap
    obtain ⟨id, _, hid⟩ := (hmem ap).1 hap
    obtain ⟨h1, h2, _⟩ := hinv.entry id ap hid
    obtain ⟨q, hq, h3, h4⟩ := hkey id ap hid
    refine ⟨?_, h2⟩
    rw [h1]
    apply List.filter_congr
    intro p hp
    rw [← h3, ← h4]
    exact decide_eq_decide.2 (sourceId_eq_iff (hinv.valid p hp) (hinv.valid q hq))

theorem keyLT_of_le_of_ne {a b : apiPackage} (h : keyLE a b) (hne : a.key ≠ b.key) :
    keyLT a.key b.key := by
  unfold keyLE at h
  unfold keyLT apiPackage.key at *
  rcases h with h | ⟨h1, h2⟩
  · exact Or.inl h
  · refine Or.inr ⟨h1, lt_of_le_of_ne h2 ?_⟩
    intro h3
    have h3' : a.apiVersion = b.apiVersion := h3
    exact hne (by rw [h1, h3'])

theorem keyLT_asymm {a b : String × String} (h1 : keyLT a b) (h2 : keyLT b a) : False := by
  unfold keyLT at *
  rcases h1 with h1 | ⟨e1, h1⟩ <;> rcases h2 with h2 | ⟨e2, h2⟩
  · exact lt_asymm h1 h2
  · exact absurd h1 (by rw [e2]; exact lt_irrefl _)
  · exact absurd h2 (by rw [e1]; exact lt_irrefl _)
  · exact lt_asymm h1 h2

theorem combine_keys_sorted {L : Lib} {pkgs : List Package} {out : List apiPackage}
    (h : combineAPIPackages L pkgs = .ok out) :
    List.Sorted keyLT (out.map apiPackage.key) := by
  obtain ⟨_, hnd, hs, _, _⟩ := combine_spec h
  unfold List.Sorted at *
  rw [List.pairwise_map]
  have hnd' : out.Pairwise (fun a b => a.key ≠ b.key) := List.pairwise_map.1 hnd
  exact (hs.and hnd').imp (fun hab => keyLT_of_le_of_ne hab.1 hab.2)

theorem combine_error_iff (L : Lib) (pkgs : List Package) :
    (∃ e, combineAPIPackages L pkgs = .error e) ↔ ∃ p ∈ pkgs, matchVersion p.Name = false := by
  rw [← combineLoop_error_iff L pkgs { pkgMap := fun _ => none, pkgIds := [] }]
  unfold combineAPIPackages
  cases combineLoop L pkgs { pkgMap := fun _ => none, pkgIds := [] } <;> simp

theorem combine_ok_iff (L : Lib) (pkgs : List Package) :
    (∃ out, combineAPIPackages L pkgs = .ok out) ↔ ∀ p ∈ pkgs, matchVersion p.Name = true := by
  constructor
  · rintro ⟨out, h⟩
    exact (combine_spec h).1
  · intro hall
    cases hc : combineAPIPackages L pkgs with
    | ok out => exact ⟨out, rfl⟩
    | error e =>
      obtain ⟨p, hp, hf⟩ := (combine_error_iff L pkgs).1 ⟨e, hc⟩
      rw [hall p hp] at hf
      cases hf

theorem derefLoop_stable (h : Heap) :
    ∀ (n m : Nat) (t : TypeRef), h.elemDepth t ≤ n → h.elemDepth t ≤ m →
      derefLoop h n t = derefLoop h m t
  | 0, m, t, hn, _ => by
    have hnone : (h.type t).Elem = none := by
      cases he : (h.type t).Elem with
      | none => rfl
      | some e => exact absurd (h.elem_lt t e he) (by omega)
    cases m with
    | zero => rfl
    | succ m => simp [derefLoop, hnone]
  | n + 1, m, t, hn, hm => by
    cases he : (h.type t).Elem with
    | none =>
      cases m with
      | zero => simp [derefLoop, he]
      | succ m => simp [derefLoop, he]
    | some e =>
      have hlt := h.elem_lt t e he
      cases m with
      | zero => omega
      | succ m =>
        simp only [derefLoop, he]
        exact derefLoop_stable h n m e (by omega) (by omega)

/-- The loop of `tryDereference`: stop at a type without `Elem`, else go on from
`Elem`. -/
theorem tryDereference_unfold (h : Heap) (t : TypeRef) :
    tryDereference h t =
      match (h.type t).Elem with
      | none => t
      | some e => tryDereference h e := by
  unfold tryDereference
  cases he : (h.type t).Elem with
  | none =>
    cases hd : h.elemDepth t with
    | zero => rfl
    | succ n => simp [derefLoop, he]
  | some e =>
    have hlt := h.elem_lt t e he
    cases hd : h.elemDepth t with
    | zero => omega
    | succ n =>
      simp only [derefLoop, he]
      exact derefLoop_stable h n (h.elemDepth e) e (by omega) (le_refl _)

theorem derefLoop_elem (h : Heap) :
    ∀ (n : Nat) (t : TypeRef), h.elemDepth t ≤ n → (h.type (derefLoop h n t)).Elem = none
  | 0, t, hn => by
    cases he : (h.type t).Elem with
    | none => simpa [derefLoop] using he
    | some e => exact absurd (h.elem_lt t e he) (by omega)
  | n + 1, t, hn => by
    cases he : (h.type t).Elem with
    | none => simp [derefLoop, he]
    | some e =>
      have hlt := h.elem_lt t e he
      simp only [derefLoop, he]
      exact derefLoop_elem h n e (by omega)

/-- The result of `tryDereference` has no `Elem`: the loop left through its test. -/
theorem tryDereference_elem (h : Heap) (t : TypeRef) :
    (h.type (tryDereference h t)).Elem = none :=
  derefLoop_elem h _ t (le_refl _)

theorem members_foldl (h : Heap) (typ B : TypeRef) :
    ∀ (members : List Member) (m : TypeRef → List TypeRef),
      (members.foldl (fun m member =>
        let t := tryDereference h member.Typ
        fun k => if k = t then m k ++ [typ] else m k) m) B =
      m B ++ (members.filter (fun member => tryDereference h member.Typ = B)).map
        (fun _ => typ)
  | [], m => by simp
  | member :: rest, m => by
    rw [List.foldl_cons, members_foldl h typ B rest]
    by_cases hB : tryDereference h member.Typ = B
    · simp [hB]
    · have hB' : ¬ B = tryDereference h member.Typ := fun e => hB e.symm
      simp [hB, hB']

theorem types_foldl (h : Heap) (B : TypeRef) :
    ∀ (types : List TypeRef) (m : TypeRef → List TypeRef),
      (types.foldl (fun m typ =>
        (h.type typ).Members.foldl (fun m member =>
          let t := tryDereference h member.Typ
          fun k => if k = t then m k ++ [typ] else m k) m) m) B =
      m B ++ types.flatMap (memberEdges h B)
  | [], m => by simp
  | typ :: rest, m => by
    rw [List.foldl_cons, types_foldl h B rest, members_foldl]
    simp [memberEdges]

theorem pkgs_foldl (h : Heap) (B : TypeRef) :
    ∀ (pkgs : List apiPackage) (m : TypeRef → List TypeRef),
      (pkgs.foldl (fun m pkg =>
        pkg.Types.foldl (fun m typ =>
          (h.type typ).Members.foldl (fun m member =>
            let t := tryDereference h member.Typ
            fun k => if k = t then m k ++ [typ] else m k) m) m) m) B =
      m B ++ (allTypes pkgs).flatMap (memberEdges h B)
  | [], m => by simp [allTypes]
  | pkg :: rest, m => by
    rw [List.foldl_cons, pkgs_foldl h B rest, types_foldl]
    simp [allTypes]

/-- The slice that `findTypeReferences` holds under `B`. -/
theorem findTypeReferences_eq (h : Heap) (pkgs : List apiPackage) (B : TypeRef) :
    findTypeReferences h pkgs B = (allTypes pkgs).flatMap (memberEdges h B) := by
  unfold findTypeReferences
  rw [pkgs_foldl]
  simp

theorem count_memberEdges (h : Heap) (B U typ : TypeRef) :
    (memberEdges h B typ).count U =
      if typ = U then
        ((h.type U).Members.filter (fun member => tryDereference h member.Typ = B)).length
      else 0 := by
  unfold memberEdges
  by_cases hU : typ = U
  · subst hU
    simp [List.count_eq_length.2]
  · simp only [hU, if_false]
    rw [List.count_eq_zero]
    intro hmem
    obtain ⟨_, _, he⟩ := List.mem_map.1 hmem
    exact hU he

theorem count_flatMap_memberEdges (h : Heap) (B U : TypeRef) :
    ∀ types : List TypeRef,
      (types.flatMap (memberEdges h B)).count U =
        types.count U *
          ((h.type U).Members.filter (fun member => tryDereference h member.Typ = B)).length
  | [] => by simp
  | typ :: rest => by
    rw [List.flatMap_cons, List.count_append, count_flatMap_memberEdges h B U rest,
      count_memberEdges, List.count_cons]
    by_cases hU : typ = U
    · simp [hU, Nat.add_mul, Nat.add_comm]
    · simp [hU]

theorem visibleRefs_none_iff (L : Lib) (h : Heap) (c : GeneratorConfig) :
    ∀ (refs m : List TypeRef),
      visibleRefs L h c refs m = none ↔ ∃ u ∈ refs, hideType L h u c = none
  | [], m => by simp [visibleRefs]
  | ref :: rest, m => by
    simp only [visibleRefs, List.mem_cons, exists_eq_or_imp]
    cases hh : hideType L h ref c with
    | none => simp
    | some b =>
      cases b with
      | true => simpa using visibleRefs_none_iff L h c rest m
      | false => simpa using visibleRefs_none_iff L h c rest _

theorem visibleRefs_some (L : Lib) (h : Heap) (c : GeneratorConfig) :
    ∀ (refs m m' : List TypeRef), visibleRefs L h c refs m = some m' → m.Nodup →
      m'.Nodup ∧ ∀ u, u ∈ m' ↔ u ∈ m ∨ (u ∈ refs ∧ hideType L h u c = some false)
  | [], m, m', hm, hnd => by
    simp only [visibleRefs, Option.some.injEq] at hm
    subst hm
    exact ⟨hnd, by simp⟩
  | ref :: rest, m, m', hm, hnd => by
    simp only [visibleRefs] at hm
    cases hh : hideType L h ref c with
    | none => rw [hh] at hm; cases hm
    | some b =>
      rw [hh] at hm
      cases b with
      | true =>
        obtain ⟨h1, h2⟩ := visibleRefs_some L h c rest m m' hm hnd
        refine ⟨h1, fun u => ?_⟩
        rw [h2 u, List.mem_cons]
        constructor
        · rintro (hu | ⟨hu, hv⟩)
          · exact Or.inl hu
          · exact Or.inr ⟨Or.inr hu, hv⟩
        · rintro (hu | ⟨rfl | hu, hv⟩)
          · exact Or.inl hu
          · rw [hh] at hv; cases hv
          · exact Or.inr ⟨hu, hv⟩
      | false =>
        by_cases hin : ref ∈ m
        · simp only [hin, if_true] at hm
          obtain ⟨h1, h2⟩ := visibleRefs_some L h c rest m m' hm hnd
          refine ⟨h1, fun u => ?_⟩
          rw [h2 u, List.mem_cons]
          constructor
          · rintro (hu | ⟨hu, hv⟩)
            · exact Or.inl hu
            · exact Or.inr ⟨Or.inr hu, hv⟩
          · rintro (hu | ⟨rfl | hu, hv⟩)
            · exact Or.inl hu
            · exact Or.inl hin
            · exact Or.inr ⟨hu, hv⟩
        · simp only [hin, if_false] at hm
          have hnd' : (m ++ [ref]).Nodup :=
            List.Nodup.append hnd (List.nodup_singleton _) (by
              intro a ha hb
              rw [List.mem_singleton.1 hb] at ha
              exact hin ha)
          obtain ⟨h1, h2⟩ := visibleRefs_some L h c rest (m ++ [ref]) m' hm hnd'
          refine ⟨h1, fun u => ?_⟩
          rw [h2 u, List.mem_cons, List.mem_append, List.mem_singleton]
          constructor
          · rintro ((hu | rfl) | ⟨hu, hv⟩)
            · exact Or.inl hu
            · exact Or.inr ⟨Or.inl rfl, hh⟩
            · exact Or.inr ⟨Or.inr hu, hv⟩
          · rintro (hu | ⟨rfl | hu, hv⟩)
            · exact Or.inl (Or.inl hu)
            · exact Or.inl (Or.inr rfl)
            · exact Or.inr ⟨hu, hv⟩

theorem sortTypes_perm (ρ : Shuffle) (h : Heap) (typs : List TypeRef) :
    (sortTypes ρ h typs).Perm typs :=
  (List.perm_insertionSort _ _).trans (ρ.perm typs)

theorem longestPrefix_spec :
    ∀ (s : List Char) (r : RegularExpression Char),
      (∀ n, longestPrefix r s = some n →
        n ≤ s.length ∧ r.rmatch (s.take n) = true ∧
          ∀ m, r.rmatch (s.take m) = true → m ≤ s.length → m ≤ n) ∧
      (longestPrefix r s = none → ∀ m, r.rmatch (s.take m) = false)
  | [], r => by
    simp only [longestPrefix, List.take_nil, RegularExpression.rmatch, List.length_nil]
    cases r.matchEpsilon <;> simp
  | c :: cs, r => by
    obtain ⟨ih1, ih2⟩ := longestPrefix_spec cs (r.deriv c)
    have hstep : ∀ m, r.rmatch ((c :: cs).take (m + 1)) = (r.deriv c).rmatch (cs.take m) := by
      intro m
      simp [RegularExpression.rmatch]
    have hzero : r.rmatch ((c :: cs).take 0) = r.matchEpsilon := by
      simp [RegularExpression.rmatch]
    cases hl : longestPrefix (r.deriv c) cs with
    | some n =>
      obtain ⟨h0, h1, h2⟩ := ih1 n hl
      have hres : longestPrefix r (c :: cs) = some (n + 1) := by
        simp [longestPrefix, hl]
      rw [hres]
      constructor
      · intro k hk
        have hk' : n + 1 = k := Option.some.inj hk
        subst hk'
        refine ⟨by simpa using h0, by rw [hstep]; exact h1, ?_⟩
        intro m hm hlen
        cases m with
        | zero => omega
        | succ m =>
          rw [hstep] at hm
          have := h2 m hm (by simpa using hlen)
          omega
      · intro hcon
        cases hcon
    | none =>
      have hnone := ih2 hl
      cases he : r.matchEpsilon with
      | true =>
        have hres : longestPrefix r (c :: cs) = some 0 := by
          simp [longestPrefix, hl, he]
        rw [hres]
        constructor
        · intro k hk
          have hk' : 0 = k := Option.some.inj hk
          subst hk'
          refine ⟨Nat.zero_le _, by rw [hzero]; exact he, ?_⟩
          intro m hm _
          cases m with
          | zero => exact le_refl _
          | succ m =>
            rw [hstep, hnone m] at hm
            cases hm
        · intro hcon
          cases hcon
      | false =>
        have hres : longestPrefix r (c :: cs) = none := by
          simp [longestPrefix, hl, he]
        rw [hres]
        constructor
        · intro k hk
          cases hk
        · intro _ m
          cases m with
          | zero => rw [hzero]; exact he
          | succ m => rw [hstep]; exact hnone m

theorem rmatch_safeIDRegex (x : List Char) :
    safeIDRegex.rmatch x = true ↔ x ≠ [] ∧ ∀ c ∈ x, isPunct c = true := by
  unfold safeIDRegex
  rw [RegularExpression.rmatch_iff_matches', mem_oneOrMore_class]
  simp [isDigitsOf, isPunct]

theorem take_all_le_takeWhile (p : Char → Bool) :
    ∀ (s : List Char) (n : Nat), n ≤ s.length → (∀ c ∈ s.take n, p c = true) →
      n ≤ (s.takeWhile p).length
  | _, 0, _, _ => Nat.zero_le _
  | [], n + 1, h, _ => by simp at h
  | c :: cs, n + 1, h, hall => by
    have hc : p c = true := hall c (by simp)
    have := take_all_le_takeWhile p cs n (by simpa using h)
      (fun d hd => hall d (by simp [hd]))
    simp [List.takeWhile, hc, this]

theorem take_takeWhile_length (p : Char → Bool) :
    ∀ s : List Char, s.take (s.takeWhile p).length = s.takeWhile p
  | [] => rfl
  | c :: cs => by
    by_cases hc : p c = true
    · simp [List.takeWhile, hc, take_takeWhile_length p cs]
    · simp [List.takeWhile, hc]

theorem drop_takeWhile_length (p : Char → Bool) :
    ∀ s : List Char, s.drop (s.takeWhile p).length = s.dropWhile p
  | [] => rfl
  | c :: cs => by
    by_cases hc : p c = true
    · simp [List.takeWhile, List.dropWhile, hc, drop_takeWhile_length p cs]
    · simp [List.takeWhile, List.dropWhile, hc]

theorem longestPrefix_punct (c : Char) (cs : List Char) (hc : isPunct c = true) :
    longestPrefix safeIDRegex (c :: cs) = some ((cs.takeWhile isPunct).length + 1) := by
  obtain ⟨h1, h2⟩ := longestPrefix_spec (c :: cs) safeIDRegex
  have hk : ((c :: cs).takeWhile isPunct).length = (cs.takeWhile isPunct).length + 1 := by
    simp [List.takeWhile, hc]
  have hmatch :
      safeIDRegex.rmatch ((c :: cs).take ((cs.takeWhile isPunct).length + 1)) = true := by
    rw [← hk, take_takeWhile_length, rmatch_safeIDRegex]
    refine ⟨by simp [List.takeWhile, hc], ?_⟩
    intro d hd
    exact (List.mem_takeWhile_imp hd)
  cases hl : longestPrefix safeIDRegex (c :: cs) with
  | none => rw [h2 hl] at hmatch; cases hmatch
  | some n =>
    obtain ⟨hn0, hn1, hn2⟩ := h1 n hl
    have hle : (cs.takeWhile isPunct).length + 1 ≤ n :=
      hn2 _ hmatch (by
        rw [← hk]
        exact (List.takeWhile_sublist _).length_le)
    have hle2 : n ≤ ((c :: cs).takeWhile isPunct).length :=
      take_all_le_takeWhile isPunct (c :: cs) n hn0 ((rmatch_safeIDRegex _).1 hn1).2
    rw [hk] at hle2
    exact congrArg some (le_antisymm hle2 hle)

theorem longestPrefix_not_punct (c : Char) (cs : List Char) (hc : isPunct c = false) :
    longestPrefix safeIDRegex (c :: cs) = none := by
  obtain ⟨h1, _⟩ := longestPrefix_spec (c :: cs) safeIDRegex
  cases hl : longestPrefix safeIDRegex (c :: cs) with
  | none => rfl
  | some n =>
    exfalso
    obtain ⟨_, hn1, _⟩ := h1 n hl
    obtain ⟨hne, hall⟩ := (rmatch_safeIDRegex _).1 hn1
    cases n with
    | zero => exact hne rfl
    | succ n =>
      have := hall c (by simp)
      rw [hc] at this
      cases this

theorem replaceAllLiteral_skip (r : RegularExpression Char) (repl : List Char) :
    ∀ (n : Nat) (s : List Char),
      replaceAllLiteral r repl n s = replaceAllLiteral r repl 0 (s.drop n)
  | 0, s => by simp
  | n + 1, [] => by simp [replaceAllLiteral]
  | n + 1, c :: cs => by
    simp only [replaceAllLiteral, List.drop_succ_cons]
    exact replaceAllLiteral_skip r repl n cs

theorem replaceAll_eq_collapse :
    ∀ (k : Nat) (s : List Char), s.length ≤ k →
      replaceAllLiteral safeIDRegex "-".data 0 s = collapsePunctRuns s
  | _, [], _ => by simp [replaceAllLiteral, collapsePunctRuns]
  | 0, c :: cs, h => by simp at h
  | k + 1, c :: cs, h => by
    have hlen : cs.length ≤ k := by simpa using h
    rw [collapsePunctRuns]
    by_cases hc : isPunct c = true
    · simp only [replaceAllLiteral, longestPrefix_punct c cs hc, hc, if_true]
      rw [replaceAllLiteral_skip, drop_takeWhile_length,
        replaceAll_eq_collapse k (cs.dropWhile isPunct)
          (le_trans (List.dropWhile_sublist _).length_le hlen)]
      rfl
    · have hc' : isPunct c = false := by simpa using hc
      simp only [replaceAllLiteral, longestPrefix_not_punct c cs hc', hc', Bool.false_eq_true,
        if_false]
      rw [replaceAll_eq_collapse k cs hlen]

theorem collapse_head_not_punct :
    ∀ s : List Char, (∀ c ∈ s.head?, isPunct c = false) →
      ∀ c ∈ (collapsePunctRuns s).head?, isPunct c = false
  | [], _ => by simp [collapsePunctRuns]
  | c :: cs, h => by
    have hc : isPunct c = false := h c (by simp)
    rw [collapsePunctRuns]
    simp only [hc, Bool.false_eq_true, if_false, List.head?_cons, Option.mem_def,
      Option.some.injEq]
    intro d hd
    rw [← hd]
    exact hc

theorem dropWhile_head_not (p : Char → Bool) :
    ∀ s : List Char, ∀ c ∈ (s.dropWhile p).head?, p c = false
  | [] => by simp
  | c :: cs => by
    by_cases hc : p c = true
    · simpa [List.dropWhile, hc] using dropWhile_head_not p cs
    · simp only [List.dropWhile, hc]
      intro d hd
      simp only [List.head?_cons, Option.mem_def, Option.some.injEq] at hd
      rw [← hd]
      simpa using hc

/-- In the collapsed text the only punctuation is the hyphen, and no two punctuation
characters are adjacent. -/
theorem collapse_props :
    ∀ (k : Nat) (s : List Char), s.length ≤ k →
      (∀ c ∈ collapsePunctRuns s, isPunct c = true → c = '-') ∧
      (collapsePunctRuns s).Chain' (fun a b => ¬ (isPunct a = true ∧ isPunct b = true))
  | _, [], _ => by simp [collapsePunctRuns]
  | 0, c :: cs, h => by simp at h
  | k + 1, c :: cs, h => by
    have hlen : cs.length ≤ k := by simpa using h
    rw [collapsePunctRuns]
    by_cases hc : isPunct c = true
    · simp only [hc, if_true]
      obtain ⟨h1, h2⟩ := collapse_props k (cs.dropWhile isPunct)
        (le_trans (List.dropWhile_sublist _).length_le hlen)
      refine ⟨?_, ?_⟩
      · intro d hd hp
        rcases List.mem_cons.1 hd with rfl | hd
        · rfl
        · exact h1 d hd hp
      · rw [List.chain'_cons']
        refine ⟨?_, h2⟩
        intro d hd hcon
        have := collapse_head_not_punct (cs.dropWhile isPunct)
          (dropWhile_head_not isPunct cs) d hd
        rw [this] at hcon
        exact absurd hcon.2 (by simp)
    · have hc' : isPunct c = false := by simpa using hc
      simp only [hc', Bool.false_eq_true, if_false]
      obtain ⟨h1, h2⟩ := collapse_props k cs hlen
      refine ⟨?_, ?_⟩
      · intro d hd hp
        rcases List.mem_cons.1 hd with rfl | hd
        · rw [hc'] at hp; cases hp
        · exact h1 d hd hp
      · rw [List.chain'_cons']
        refine ⟨?_, h2⟩
        intro d _ hcon
        rw [hc'] at hcon
        exact absurd hcon.1 (by simp)

set_option maxRecDepth 100000 in
/-- The ASCII branch of `unicode.ToLower`, checked on the 128 ASCII characters. -/
theorem asciiLower_table :
    ∀ n, n < 128 →
      asciiLower (Char.ofNat n) ∉ upperLetters ∧
      (isPunct (asciiLower (Char.ofNat n)) = isPunct (Char.ofNat n)) ∧
      (asciiLower (Char.ofNat n) = '-' → Char.ofNat n = '-') ∧
      (Char.ofNat n ∉ upperLetters → asciiLower (Char.ofNat n) = Char.ofNat n) ∧
      (asciiLower (Char.ofNat n)).toNat < 128 ∧
      asciiLower (asciiLower (Char.ofNat n)) = asciiLower (Char.ofNat n) := by
  decide

theorem asciiLower_ascii (c : Char) (hc : c.toNat < 128) :
    asciiLower c ∉ upperLetters ∧ isPunct (asciiLower c) = isPunct c ∧
      (asciiLower c = '-' → c = '-') := by
  have := asciiLower_table c.toNat hc
  rw [Char.ofNat_toNat] at this
  exact ⟨this.1, this.2.1, this.2.2.1⟩

theorem lists_ascii :
    (∀ c ∈ upperLetters, c.toNat < 128) ∧ (∀ c ∈ punctChars, c.toNat < 128) ∧
    (∀ c ∈ lowerLetters, c ∉ upperLetters ∧ c ∉ punctChars) := by
  decide

/-- What `unicode.ToLower` never returns, given that the case table sends a rune beyond
ASCII to a rune beyond ASCII or to a small ASCII letter. -/
theorem toLowerRune_props (T : TextLib)
    (hwide : ∀ c : Char, 128 ≤ c.toNat →
      128 ≤ (T.ToLowerWide c).toNat ∨ T.ToLowerWide c ∈ lowerLetters) (c : Char) :
    toLowerRune T c ∉ upperLetters ∧
    (isPunct (toLowerRune T c) = true → isPunct c = true) ∧
    (toLowerRune T c = '-' → c = '-') := by
  unfold toLowerRune
  by_cases hc : c.toNat < 128
  · simp only [hc, if_true]
    obtain ⟨h1, h2, h3⟩ := asciiLower_ascii c hc
    exact ⟨h1, fun hp => by rw [← h2]; exact hp, h3⟩
  · simp only [hc, if_false]
    have hnot : T.ToLowerWide c ∉ upperLetters ∧ T.ToLowerWide c ∉ punctChars := by
      rcases hwide c (by omega) with hw | hw
      · exact ⟨fun hm => absurd (lists_ascii.1 _ hm) (by omega),
          fun hm => absurd (lists_ascii.2.1 _ hm) (by omega)⟩
      · exact lists_ascii.2.2 _ hw
    refine ⟨hnot.1, ?_, ?_⟩
    · intro hp
      exact absurd (by simpa [isPunct] using hp) hnot.2
    · intro he
      exact absurd (by rw [he]; decide) hnot.2

theorem toLowerRune_ascii (T : TextLib) (c : Char) (hc : c.toNat < 128) :
    toLowerRune T c = asciiLower c := by
  simp [toLowerRune, hc]

theorem asciiLower_fix_table :
    ∀ n, n < 128 → Char.ofNat n ∉ upperLetters → asciiLower (Char.ofNat n) = Char.ofNat n :=
  fun n hn => (asciiLower_table n hn).2.2.2.1

theorem map_toLowerRune_ascii (T : TextLib) :
    ∀ l : List Char, (∀ c ∈ l, c.toNat < 128) → l.map (toLowerRune T) = l.map asciiLower
  | [], _ => rfl
  | c :: l, h => by
    rw [List.map_cons, List.map_cons, toLowerRune_ascii T c (h c (by simp)),
      map_toLowerRune_ascii T l (fun d hd => h d (by simp [hd]))]

theorem safeIdentifier_example (T : TextLib) :
    safeIdentifier T "apps/v1.Deployment Spec!" = "apps-v1-deployment spec-" := by
  have h : replaceAllLiteral safeIDRegex "-".data 0 "apps/v1.Deployment Spec!".data =
      "apps-v1-Deployment Spec-".data := by decide
  unfold safeIdentifier stringsToLower
  rw [h, map_toLowerRune_ascii T _ (by decide)]
  decide

theorem replaceFirst_at_start (old new : List Char) :
    ∀ s : List Char, old.isPrefixOf s = true →
      replaceFirst old new s = new ++ s.drop old.length
  | [], h => by
    cases old with
    | nil => simp [replaceFirst]
    | cons a l => simp [List.isPrefixOf] at h
  | ch :: s, h => by
    simp [replaceFirst, h]

theorem applyOverrides_option (b : String) (ov : Option (String × String)) :
    applyOverrides b ov.toList = withOverride b ov := by
  cases ov with
  | none => rfl
  | some pr =>
    obtain ⟨p, r⟩ := pr
    simp only [Option.toList, applyOverrides, withOverride]
    by_cases hp : p.data.isPrefixOf b.data = true
    · simp only [hp, if_true]
      rw [replaceFirst_at_start _ _ _ hp]
    · simp [hp]

theorem tryDereference_idem (h : Heap) (t : TypeRef) :
    tryDereference h (tryDereference h t) = tryDereference h t := by
  rw [tryDereference_unfold h (tryDereference h t), tryDereference_elem]

theorem externalLink_skip (L : Lib) (T : TextLib) (h : Heap) (t : TypeRef) (id : String) :
    ∀ (pre rest : List externalPackage),
      (∀ v ∈ pre, ∃ r, L.Compile v.TypeMatchPrefix = some r ∧ r id = false) →
      externalLink L T h t id (pre ++ rest) = externalLink L T h t id rest
  | [], rest, _ => rfl
  | v :: pre, rest, hpre => by
    obtain ⟨r, hr, hm⟩ := hpre v (by simp)
    simp only [List.cons_append, externalLink, hr, hm, Bool.false_eq_true, if_false]
    exact externalLink_skip L T h t id pre rest (fun w hw => hpre w (by simp [hw]))

theorem typeLess_iff (h : Heap) (a b : TypeRef) :
    typeLess h a b = true ↔
      (isExportedType h a = true ∧ isExportedType h b = false) ∨
      (isExportedType h a = isExportedType h b ∧
        (h.type a).Name.String < (h.type b).Name.String) := by
  unfold typeLess
  rw [← str_lt_iff]
  cases isExportedType h a <;> cases isExportedType h b <;> simp

theorem typeLess_false_iff (h : Heap) (a b : TypeRef) :
    typeLess h b a = false ↔
      (isExportedType h b = true → isExportedType h a = true) ∧
      (isExportedType h a = isExportedType h b →
        (h.type a).Name.String ≤ (h.type b).Name.String) := by
  rw [← Bool.not_eq_true, typeLess_iff]
  cases isExportedType h a <;> cases isExportedType h b <;> simp

theorem sortTypes_sorted (ρ : Shuffle) (h : Heap) (typs : List TypeRef) :
    (sortTypes ρ h typs).Pairwise (fun a b => typeLess h b a = false) := by
  haveI : IsTotal TypeRef (fun a b => typeLess h b a = false) :=
    ⟨fun a b => by
      simp only [typeLess_false_iff]
      rcases le_total (h.type a).Name.String (h.type b).Name.String with hab | hab <;>
        cases isExportedType h a <;> cases isExportedType h b <;> simp [hab]⟩
  haveI : IsTrans TypeRef (fun a b => typeLess h b a = false) :=
    ⟨fun a b c => by
      simp only [typeLess_false_iff]
      intro h1 h2
      cases ha : isExportedType h a <;> cases hb : isExportedType h b <;>
        cases hc : isExportedType h c <;> simp_all
      · exact le_trans h1 h2
      · exact le_trans h1 h2⟩
  exact List.sorted_insertionSort (fun a b => typeLess h b a = false) (ρ.visit typs)

theorem matchesHidePattern_eq (L : Lib) (name : String) :
    ∀ patterns : List String, (∀ p ∈ patterns, ∃ m, L.Compile p = some m) →
      matchesHidePattern L name patterns = some (patterns.any (patternMatches L name))
  | [], _ => rfl
  | p :: rest, hcomp => by
    obtain ⟨m, hm⟩ := hcomp p (by simp)
    have ih := matchesHidePattern_eq L name rest (fun q hq => hcomp q (by simp [hq]))
    simp only [matchesHidePattern, hm, List.any_cons, patternMatches]
    cases m name <;> simp [ih, patternMatches]

/-- What `hideType` returns when every hide pattern compiles and the local name is not
empty: the first byte of the name decides the second condition. -/
theorem hideType_eq (L : Lib) (h : Heap) (t : TypeRef) (c : GeneratorConfig) (ch : Char)
    (rest : List Char) (hcomp : ∀ p ∈ c.HideTypePatterns, ∃ m, L.Compile p = some m)
    (hname : (h.type t).Name.Name.data = ch :: rest) :
    hideType L h t c =
      some (c.HideTypePatterns.any (patternMatches L (h.type t).Name.String) ||
        (!isExportedType h t && isLowerLatin1 (firstByte ch))) := by
  unfold hideType
  rw [matchesHidePattern_eq L _ _ hcomp, hname]
  cases c.HideTypePatterns.any (patternMatches L (h.type t).Name.String) <;>
    cases isExportedType h t <;> simp

theorem firstByte_ascii (c : Char) (hc : c.toNat < 128) : firstByte c = c.toNat := by
  simp [firstByte, hc]

theorem visibleTypes_eq_filter (L : Lib) (h : Heap) (c : GeneratorConfig) :
    ∀ (ts out : List TypeRef), visibleTypes L h c ts = some out →
      out = ts.filter (fun t => decide (hideType L h t c = some false))
  | [], out, hv => by
    simp only [visibleTypes, Option.some.injEq] at hv
    simp [← hv]
  | t :: rest, out, hv => by
    simp only [visibleTypes] at hv
    cases hh : hideType L h t c with
    | none => rw [hh] at hv; cases hv
    | some hidden =>
      rw [hh] at hv
      cases hr : visibleTypes L h c rest with
      | none => rw [hr] at hv; cases hv
      | some out' =>
        rw [hr] at hv
        have ih := visibleTypes_eq_filter L h c rest out' hr
        simp only [Option.some.injEq] at hv
        rw [← hv, ih]
        cases hidden <;> simp [hh]

theorem visibleTypes_none_iff (L : Lib) (h : Heap) (c : GeneratorConfig) :
    ∀ ts : List TypeRef,
      visibleTypes L h c ts = none ↔ ∃ t ∈ ts, hideType L h t c = none
  | [] => by simp [visibleTypes]
  | t :: rest => by
    simp only [visibleTypes, List.mem_cons, exists_eq_or_imp]
    cases hh : hideType L h t c with
    | none => simp
    | some hidden =>
      have ih := visibleTypes_none_iff L h c rest
      cases hr : visibleTypes L h c rest with
      | none => simpa [hr] using ih
      | some out => simpa [hr] using ih

theorem suffix_comma_iff (name tail suf : List Char) (r : List Char)
    (hn : ',' ∉ name) (hs : suf = ',' :: r) :
    suf <:+ name ++ tail ↔ suf <:+ tail := by
  constructor
  · rintro ⟨pre, hpre⟩
    rcases List.append_eq_append_iff.1 hpre with ⟨a', h1, h2⟩ | ⟨c', h1, h2⟩
    · cases a' with
      | nil =>
        rw [List.nil_append] at h2
        rw [h2]
      | cons x a'' =>
        exfalso
        rw [hs] at h2
        have hx : x = ',' := by
          simp only [List.cons_append, List.cons.injEq] at h2
          exact h2.1.symm
        apply hn
        rw [h1, hx]
        simp
    · exact ⟨c', h2.symm⟩
  · intro hsuf
    exact hsuf.trans (List.suffix_append _ _)

theorem trimSuffix_append (name tail suf : String) (r : List Char)
    (hn : ',' ∉ name.data) (hs : suf.data = ',' :: r) :
    trimSuffix (name ++ tail) suf = name ++ trimSuffix tail suf := by
  unfold trimSuffix
  have hiff := suffix_comma_iff name.data tail.data suf.data r hn hs
  by_cases hsuf : suf.data <:+ tail.data
  · have h1 : suf.data.isSuffixOf (name ++ tail).data = true := by
      rw [List.isSuffixOf_iff_suffix]
      simpa using hiff.2 hsuf
    have h2 : suf.data.isSuffixOf tail.data = true := by
      rw [List.isSuffixOf_iff_suffix]
      exact hsuf
    rw [if_pos h1, if_pos h2]
    apply String.ext
    have hlen : suf.data.length ≤ tail.data.length := hsuf.length_le
    simp only [String.data_append, List.length_append]
    rw [show name.data.length + tail.data.length - suf.data.length =
      name.data.length + (tail.data.length - suf.data.length) by omega, List.take_append]
  · have h1 : ¬ suf.data.isSuffixOf (name ++ tail).data = true := by
      rw [List.isSuffixOf_iff_suffix]
      simpa using fun hc => hsuf (hiff.1 hc)
    have h2 : ¬ suf.data.isSuffixOf tail.data = true := by
      rw [List.isSuffixOf_iff_suffix]
      exact hsuf
    rw [if_neg h1, if_neg h2]

/-- The two calls of `strings.TrimSuffix` in `fieldName` on a name without comma that
is followed by modifiers. -/
theorem trim_both (name tail : String) (hn : ',' ∉ name.data) :
    trimSuffix (trimSuffix (name ++ tail) ",omitempty") ",inline" =
      name ++ trimSuffix (trimSuffix tail ",omitempty") ",inline" := by
  rw [trimSuffix_append name tail ",omitempty" _ hn rfl,
    trimSuffix_append name _ ",inline" _ hn rfl]

theorem asciiLower_idem_table :
    ∀ n, n < 128 →
      (asciiLower (Char.ofNat n)).toNat < 128 ∧
      asciiLower (asciiLower (Char.ofNat n)) = asciiLower (Char.ofNat n) :=
  fun n hn => (asciiLower_table n hn).2.2.2.2

/-- Lower-casing twice is lower-casing once, given that for the case table beyond
ASCII. -/
theorem toLowerRune_idem (T : TextLib)
    (hidem : ∀ c : Char, 128 ≤ c.toNat → toLowerRune T (T.ToLowerWide c) = T.ToLowerWide c)
    (c : Char) : toLowerRune T (toLowerRune T c) = toLowerRune T c := by
  by_cases hc : c.toNat < 128
  · have := asciiLower_idem_table c.toNat hc
    rw [Char.ofNat_toNat] at this
    rw [toLowerRune_ascii T c hc, toLowerRune_ascii T _ this.1, this.2]
  · have hc' : 128 ≤ c.toNat := by omega
    have hw : toLowerRune T c = T.ToLowerWide c := by simp [toLowerRune, hc]
    rw [hw, hidem c hc']

theorem wrapInt_id (x : Int) (h1 : -2 ^ 63 ≤ x) (h2 : x < 2 ^ 63) : wrapInt x = x := by
  unfold wrapInt
  omega

/-- The index that `arrIndex` reads, for an index between `-len(a)` and `len(a)`. -/
theorem arrIndex_eq (a : List String) (i : Int) (hlen : a.length < 2 ^ 62)
    (hlo : -(a.length : Int) ≤ i) (hhi : i < (a.length : Int)) :
    arrIndex a i = a[(if 0 ≤ i then i else (a.length : Int) + i).toNat]? := by
  have hlen' : (a.length : Int) < 2 ^ 62 := by exact_mod_cast hlen
  have hpos : 0 < (a.length : Int) := by omega
  have hne : a.length ≠ 0 := by omega
  have hw : wrapInt ((a.length : Int) + i) = (a.length : Int) + i :=
    wrapInt_id _ (by omega) (by omega)
  have hk : Int.tmod (wrapInt ((a.length : Int) + i)) (a.length : Int) =
      if 0 ≤ i then i else (a.length : Int) + i := by
    rw [hw, Int.tmod_eq_emod (by omega) (by omega)]
    by_cases hi : 0 ≤ i
    · rw [if_pos hi, Int.add_emod_self_left, Int.emod_eq_of_lt hi hhi]
    · rw [if_neg hi, Int.emod_eq_of_lt (by omega) (by omega)]
  unfold arrIndex
  rw [if_neg hne]
  simp only [hk]
  have hnn : ¬ (if 0 ≤ i then i else (a.length : Int) + i) < 0 := by
    by_cases hi : 0 ≤ i
    · rw [if_pos hi]; omega
    · rw [if_neg hi]; omega
  rw [if_neg hnn]

theorem splitSlash_ne_nil : ∀ s : List Char, splitSlash s ≠ []
  | [] => by simp [splitSlash]
  | c :: cs => by
    unfold splitSlash
    by_cases hc : c = '/'
    · simp [hc]
    · simp only [hc, if_false]
      cases splitSlash cs <;> simp

theorem applyOverrides_cons (s : String) (e : String × String) (l : List (String × String)) :
    applyOverrides s (e :: l) =
      if overrideApplies s e then applyOverrides (overridden s e) l else applyOverrides s l := by
  obtain ⟨p, r⟩ := e
  simp only [applyOverrides, overrideApplies, overridden]

theorem applyOverrides_none (s : String) :
    ∀ l : List (String × String), (∀ e ∈ l, overrideApplies s e = false) →
      applyOverrides s l = s
  | [], _ => rfl
  | e :: l, h => by
    rw [applyOverrides_cons, h e (by simp)]
    simp only [Bool.false_eq_true, if_false]
    exact applyOverrides_none s l (fun e' he' => h e' (by simp [he']))

theorem applyOverrides_single (s : String) (e : String × String) :
    ∀ l : List (String × String), l.Nodup → e ∈ l → overrideApplies s e = true →
      (∀ e' ∈ l, e' ≠ e →
        overrideApplies s e' = false ∧ overrideApplies (overridden s e) e' = false) →
      applyOverrides s l = overridden s e
  | [], _, he, _, _ => by cases he
  | e0 :: l, hnd, he, happ, hfree => by
    rw [applyOverrides_cons]
    by_cases h0 : e0 = e
    · subst h0
      rw [happ]
      simp only [if_true]
      apply applyOverrides_none
      intro e' he'
      have hne : e' ≠ e0 := by
        intro heq
        rw [heq] at he'
        exact (List.nodup_cons.1 hnd).1 he'
      exact (hfree e' (by simp [he']) hne).2
    · have hin : e ∈ l := by
        rcases List.mem_cons.1 he with h | h
        · exact absurd h.symm h0
        · exact h
      rw [(hfree e0 (by simp) h0).1]
      simp only [Bool.false_eq_true, if_false]
      exact applyOverrides_single s e l (List.nodup_cons.1 hnd).2 hin happ
        (fun e' he' hne => hfree e' (by simp [he']) hne)

/-- The overrides may be visited in any order when they do not interact on the name:
whenever one applies, no other applies to the name or to the rewritten name. -/
theorem applyOverrides_order_free (s : String) (l1 l2 : List (String × String))
    (hperm : l1.Perm l2) (hnd : l1.Nodup)
    (hfree : ∀ e ∈ l1, overrideApplies s e = true → ∀ e' ∈ l1, e' ≠ e →
      overrideApplies s e' = false ∧ overrideApplies (overridden s e) e' = false) :
    applyOverrides s l1 = applyOverrides s l2 := by
  by_cases hany : ∃ e ∈ l1, overrideApplies s e = true
  · obtain ⟨e, he, happ⟩ := hany
    rw [applyOverrides_single s e l1 hnd he happ (hfree e he happ),
      applyOverrides_single s e l2 (hperm.nodup_iff.1 hnd) (hperm.mem_iff.1 he) happ
        (fun e' he' hne => hfree e he happ e' (hperm.mem_iff.2 he') hne)]
  · have hnone : ∀ e ∈ l1, overrideApplies s e = false := by
      intro e he
      cases hb : overrideApplies s e with
      | false => rfl
      | true => exact absurd ⟨e, he, hb⟩ hany
    rw [applyOverrides_none s l1 hnone,
      applyOverrides_none s l2 (fun e he => hnone e (hperm.mem_iff.2 he))]

theorem generateDoc_preserve
    (render : List apiPackage → GeneratorConfig → Except String String)
    (apiPackages : List apiPackage) (config : GeneratorConfig) (b : String)
    (hr : render apiPackages config = .ok b)
    (hp : config.PreserveTrailingWhitespace = true) :
    generateDoc render apiPackages config = .ok b := by
  unfold generateDoc
  rw [hr]
  simp [hp]

/-! ## Claims -/

/-- C1: `sortPackages` leaves a permutation of its input that is in ascending order of
`(apiGroup, apiVersion)`, the group compared first and both compared as plain strings;
the six packages of `Test_sortPackages` end as a/v1, a/v1beta1, b/v1, b/v1beta1, c/v1,
c/v1beta1. -/
theorem C1_sortPackages_sorted_perm (pkgs : List apiPackage) :
    (sortPackages pkgs).Perm pkgs ∧ List.Sorted keyLE (sortPackages pkgs) ∧
    sortPackages [testPackage "a" "v1", testPackage "c" "v1beta1", testPackage "b" "v1beta1",
        testPackage "c" "v1", testPackage "b" "v1", testPackage "a" "v1beta1"]
      = [testPackage "a" "v1", testPackage "a" "v1beta1", testPackage "b" "v1",
        testPackage "b" "v1beta1", testPackage "c" "v1", testPackage "c" "v1beta1"] :=
  ⟨sortPackages_perm pkgs, sortPackages_sorted pkgs, by decide⟩

/-- C2: when `combineAPIPackages` succeeds, any two entries of the output differ in
`apiGroup` or in `apiVersion`; an entry holds exactly the source packages that have its
group and version; and the map key `group/version` separates source packages with
different (group, version) pairs. -/
theorem C2_one_apiPackage_per_key (L : Lib) (pkgs : List Package) (out : List apiPackage)
    (h : combineAPIPackages L pkgs = .ok out) :
    out.Pairwise (fun a b => a.apiGroup ≠ b.apiGroup ∨ a.apiVersion ≠ b.apiVersion) ∧
    (∀ ap ∈ out, ∀ p, p ∈ ap.GoPackages ↔
      p ∈ pkgs ∧ groupName L p = ap.apiGroup ∧ p.Name = ap.apiVersion) ∧
    (∀ p ∈ pkgs, ∀ q ∈ pkgs, sourceId L p = sourceId L q →
      groupName L p = groupName L q ∧ p.Name = q.Name) := by
  obtain ⟨hvalid, hnd, _, _, hent⟩ := combine_spec h
  refine ⟨?_, ?_, ?_⟩
  · have hnd' : out.Pairwise (fun a b => a.key ≠ b.key) := List.pairwise_map.1 hnd
    refine hnd'.imp ?_
    intro a b hab
    by_contra hcon
    simp only [not_or, not_not] at hcon
    exact hab (by simp [apiPackage.key, hcon.1, hcon.2])
  · intro ap hap p
    rw [(hent ap hap).1, List.mem_filter]
    simp [sourceKey, apiPackage.key]
  · intro p hp q hq hid
    have := (sourceId_eq_iff (hvalid p hp) (hvalid q hq)).1 hid
    exact ⟨(Prod.mk.inj this).1, (Prod.mk.inj this).2⟩

/-- Witness of C2 on three source packages, two of which share group and version. -/
theorem C2_one_apiPackage_per_key_witness :
    combineAPIPackages demoLib [demoP1, demoP3, demoP2] =
      .ok [⟨"a", "v1beta1", [demoP3], [3], []⟩, ⟨"g", "v1", [demoP1, demoP2], [1, 2], [1, 2, 12]⟩] ∧
    [(⟨"a", "v1beta1", [demoP3], [3], []⟩ : apiPackage),
      ⟨"g", "v1", [demoP1, demoP2], [1, 2], [1, 2, 12]⟩].Pairwise
        (fun a b => a.apiGroup ≠ b.apiGroup ∨ a.apiVersion ≠ b.apiVersion) :=
  ⟨by rfl, (C2_one_apiPackage_per_key demoLib [demoP1, demoP3, demoP2] _ (by rfl)).1⟩

/-- C3: when `combineAPIPackages` succeeds, the `Types` of each output entry are the
types of the source packages with its group and version, concatenated in processing
order: each type occurs as often as those packages contribute it, and nothing else
occurs. -/
theorem C3_types_of_contributors (L : Lib) (pkgs : List Package) (out : List apiPackage)
    (h : combineAPIPackages L pkgs = .ok out) :
    ∀ ap ∈ out,
      ap.Types = contributedTypes (pkgs.filter (fun p => sourceKey L p = ap.key)) ∧
      (∀ t, ap.Types.count t =
        ((pkgs.filter (fun p => sourceKey L p = ap.key)).map
          (fun p => (flattenTypes p.Types).count t)).sum) ∧
      (∀ t, t ∈ ap.Types ↔
        ∃ p ∈ pkgs, sourceKey L p = ap.key ∧ t ∈ flattenTypes p.Types) := by
  obtain ⟨_, _, _, _, hent⟩ := combine_spec h
  intro ap hap
  obtain ⟨h1, h2⟩ := hent ap hap
  have heq : ap.Types = contributedTypes (pkgs.filter (fun p => sourceKey L p = ap.key)) := by
    rw [h2, h1]
  refine ⟨heq, ?_, ?_⟩
  · intro t
    rw [heq, contributedTypes, List.count_flatMap]
    rfl
  · intro t
    rw [heq, contributedTypes, List.mem_flatMap]
    constructor
    · rintro ⟨p, hp, ht⟩
      obtain ⟨hp1, hp2⟩ := List.mem_filter.1 hp
      exact ⟨p, hp1, by simpa using hp2, ht⟩
    · rintro ⟨p, hp, hk, ht⟩
      exact ⟨p, List.mem_filter.2 ⟨hp, by simpa using hk⟩, ht⟩

/-- Witness of C3: the types of the two source packages of `g/v1` are merged. -/
theorem C3_types_of_contributors_witness :
    combineAPIPackages demoLib [demoP1, demoP3, demoP2] =
      .ok [⟨"a", "v1beta1", [demoP3], [3], []⟩, ⟨"g", "v1", [demoP1, demoP2], [1, 2], [1, 2, 12]⟩] ∧
    (⟨"g", "v1", [demoP1, demoP2], [1, 2], [1, 2, 12]⟩ : apiPackage).Types =
      contributedTypes ([demoP1, demoP3, demoP2].filter (fun p =>
        sourceKey demoLib p =
          (⟨"g", "v1", [demoP1, demoP2], [1, 2], [1, 2, 12]⟩ : apiPackage).key)) :=
  ⟨by rfl,
    (C3_types_of_contributors demoLib [demoP1, demoP3, demoP2] _ (by rfl)
      ⟨"g", "v1", [demoP1, demoP2], [1, 2], [1, 2, 12]⟩
      (List.mem_cons_of_mem _ (List.mem_cons_self _ _))).1⟩

/-- C4 (code defect): in the `else` branch `combineAPIPackages` assigns
`append(v.Types, ...)` to `v.Constants`. For two source packages of one group and
version with types 1 and 2 and constants 11 and 12 the merged `Constants` are
`[1, 2, 12]`: the constant 11 of the first package is lost and both types are listed as
constants. -/
theorem C4_constants_take_types :
    combineAPIPackages demoLib [demoP1, demoP2] =
      .ok [⟨"g", "v1", [demoP1, demoP2], [1, 2], [1, 2, 12]⟩] ∧
    ([1, 2, 12] : List TypeRef) ≠ flattenTypes demoP1.Constants ++ flattenTypes demoP2.Constants ∧
    flattenTypes demoP1.Constants ++ flattenTypes demoP2.Constants = [11, 12] :=
  ⟨by rfl, by decide, by rfl⟩

/-- C5: `combineAPIPackages` returns an error (and no list) exactly when some source
package has a name that does not match `^v\d+((alpha|beta)\d+)?$`, and a list exactly
when every name matches; a name matches exactly when it is "v", one or more ASCII
digits, and then nothing or "alpha" or "beta" followed by one or more digits. A package
named "alpha" makes the grouping fail; "v1", "v1beta1" and "v2alpha3" match, "v1beta" and
"V1" do not. -/
theorem C5_error_iff_bad_version (L : Lib) (pkgs : List Package) :
    ((∃ e, combineAPIPackages L pkgs = .error e) ↔
      ∃ p ∈ pkgs, matchVersion p.Name = false) ∧
    ((∃ out, combineAPIPackages L pkgs = .ok out) ↔
      ∀ p ∈ pkgs, matchVersion p.Name = true) ∧
    (∀ s : String, matchVersion s = true ↔ isVersionShape s.data) ∧
    (∀ p ∈ pkgs, p.Name = "alpha" → ∃ e, combineAPIPackages L pkgs = .error e) ∧
    (matchVersion "v1" = true ∧ matchVersion "v1beta1" = true ∧
      matchVersion "v2alpha3" = true ∧ matchVersion "alpha" = false ∧
      matchVersion "v1beta" = false ∧ matchVersion "V1" = false) := by
  refine ⟨combine_error_iff L pkgs, combine_ok_iff L pkgs, matchVersion_iff, ?_, by decide⟩
  intro p hp hname
  exact (combine_error_iff L pkgs).2 ⟨p, hp, by rw [hname]; decide⟩

/-- C6: for two lists of source packages that are permutations of one another,
`combineAPIPackages` fails on both or succeeds on both with the same sequence of
(apiGroup, apiVersion) keys; that sequence is strictly ascending, the group compared
first and both compared as plain strings, and holds exactly the keys of the input. -/
theorem C6_key_order_independent (L : Lib) (pkgs1 pkgs2 : List Package)
    (hperm : pkgs1.Perm pkgs2) :
    ((∃ e1, combineAPIPackages L pkgs1 = .error e1) ∧
      (∃ e2, combineAPIPackages L pkgs2 = .error e2)) ∨
    (∃ out1 out2, combineAPIPackages L pkgs1 = .ok out1 ∧
      combineAPIPackages L pkgs2 = .ok out2 ∧
      out1.map apiPackage.key = out2.map apiPackage.key ∧
      List.Sorted keyLT (out1.map apiPackage.key) ∧
      ∀ k, k ∈ out1.map apiPackage.key ↔ ∃ p ∈ pkgs1, sourceKey L p = k) := by
  cases h1 : combineAPIPackages L pkgs1 with
  | error e1 =>
    left
    refine ⟨⟨e1, rfl⟩, ?_⟩
    obtain ⟨p, hp, hf⟩ := (combine_error_iff L pkgs1).1 ⟨e1, h1⟩
    exact (combine_error_iff L pkgs2).2 ⟨p, hperm.mem_iff.1 hp, hf⟩
  | ok out1 =>
    right
    have hall : ∀ p ∈ pkgs2, matchVersion p.Name = true := fun p hp =>
      (combine_spec h1).1 p (hperm.mem_iff.2 hp)
    obtain ⟨out2, h2⟩ := (combine_ok_iff L pkgs2).2 hall
    refine ⟨out1, out2, rfl, h2, ?_, combine_keys_sorted h1, (combine_spec h1).2.2.2.1⟩
    haveI : IsAntisymm (String × String) keyLT :=
      ⟨fun a b hab hba => (keyLT_asymm hab hba).elim⟩
    refine List.eq_of_perm_of_sorted ?_ (combine_keys_sorted h1) (combine_keys_sorted h2)
    refine (List.perm_ext_iff_of_nodup (combine_spec h1).2.1 (combine_spec h2).2.1).2 ?_
    intro k
    rw [(combine_spec h1).2.2.2.1 k, (combine_spec h2).2.2.2.1 k]
    constructor
    · rintro ⟨p, hp, hk⟩
      exact ⟨p, hperm.mem_iff.1 hp, hk⟩
    · rintro ⟨p, hp, hk⟩
      exact ⟨p, hperm.mem_iff.2 hp, hk⟩

/-- Witness of C6: the three source packages in two orders. -/
theorem C6_key_order_independent_witness :
    ((∃ e1, combineAPIPackages demoLib [demoP1, demoP2, demoP3] = .error e1) ∧
      (∃ e2, combineAPIPackages demoLib [demoP3, demoP2, demoP1] = .error e2)) ∨
    (∃ out1 out2, combineAPIPackages demoLib [demoP1, demoP2, demoP3] = .ok out1 ∧
      combineAPIPackages demoLib [demoP3, demoP2, demoP1] = .ok out2 ∧
      out1.map apiPackage.key = out2.map apiPackage.key ∧
      List.Sorted keyLT (out1.map apiPackage.key) ∧
      ∀ k, k ∈ out1.map apiPackage.key ↔
        ∃ p ∈ [demoP1, demoP2, demoP3], sourceKey demoLib p = k) :=
  C6_key_order_independent demoLib [demoP1, demoP2, demoP3] [demoP3, demoP2, demoP1]
    (by decide)

/-- C7: `U` occurs in `findTypeReferences(pkgs)[B]` exactly when `U` is in the `Types`
of some package and `U` has a member whose type dereferences to `B`; `tryDereference`
follows `Elem` down to a type without `Elem`, so the key is the base type and the entry
is the owner. In a heap where `Node` has members of type `*Node` and `[]Node` and refers
to `Peer`, which refers back, the entries under `Node` are `Node`, `Node`, `Peer` and
`internalHelper`, and there is none under `*Node`. -/
theorem C7_reference_edges (h : Heap) (pkgs : List apiPackage) (B U : TypeRef) :
    (U ∈ findTypeReferences h pkgs B ↔
      ∃ pkg ∈ pkgs, U ∈ pkg.Types ∧
        ∃ member ∈ (h.type U).Members, tryDereference h member.Typ = B) ∧
    (∀ t, (h.type (tryDereference h t)).Elem = none ∧
      tryDereference h t =
        match (h.type t).Elem with
        | none => t
        | some e => tryDereference h e) ∧
    (findTypeReferences demoHeap [demoApiPackage] 1 = [1, 1, 4, 6] ∧
      findTypeReferences demoHeap [demoApiPackage] 2 = [] ∧
      findTypeReferences demoHeap [demoApiPackage] 4 = [1]) := by
  refine ⟨?_, fun t => ⟨tryDereference_elem h t, tryDereference_unfold h t⟩, by decide⟩
  rw [findTypeReferences_eq]
  simp only [allTypes, memberEdges, List.mem_flatMap, List.mem_map, List.mem_filter,
    decide_eq_true_eq]
  constructor
  · rintro ⟨typ, ⟨pkg, hpkg, htyp⟩, member, ⟨hmem, hB⟩, rfl⟩
    exact ⟨pkg, hpkg, htyp, member, hmem, hB⟩
  · rintro ⟨pkg, hpkg, htyp, member, hmem, hB⟩
    exact ⟨U, ⟨pkg, hpkg, htyp⟩, member, ⟨hmem, hB⟩, rfl⟩

/-- C8, as stated, fails: `Node` references itself through the members `next *Node` and
`items []Node`, and `findTypeReferences` holds `Node` twice under `Node`. -/
theorem C8_owner_listed_twice :
    ¬ ∀ (h : Heap) (pkgs : List apiPackage) (B : TypeRef),
      (findTypeReferences h pkgs B).Nodup := by
  intro hall
  have := hall demoHeap [demoApiPackage] 1
  revert this
  decide

/-- C8, amended: `findTypeReferences(pkgs)[B]` holds an owner once for each of its
members whose dereferenced type is `B`, and that for each occurrence of the owner in
the `Types` of the packages; so it holds every owner at most once exactly when no
listed owner has two such members or is listed twice with one. -/
theorem C8_owner_once_per_member (h : Heap) (pkgs : List apiPackage) (B : TypeRef) :
    (∀ U, (findTypeReferences h pkgs B).count U =
      (allTypes pkgs).count U *
        ((h.type U).Members.filter (fun member => tryDereference h member.Typ = B)).length) ∧
    ((findTypeReferences h pkgs B).Nodup ↔
      ∀ U, (allTypes pkgs).count U *
        ((h.type U).Members.filter
          (fun member => tryDereference h member.Typ = B)).length ≤ 1) := by
  have hcount : ∀ U, (findTypeReferences h pkgs B).count U =
      (allTypes pkgs).count U *
        ((h.type U).Members.filter
          (fun member => tryDereference h member.Typ = B)).length := by
    intro U
    rw [findTypeReferences_eq, count_flatMap_memberEdges]
  refine ⟨hcount, ?_⟩
  rw [List.nodup_iff_count_le_one]
  constructor
  · intro hn U
    rw [← hcount U]
    exact hn U
  · intro hn U
    rw [hcount U]
    exact hn U

/-- C9: `typeReferences(t, c, refs)` panics exactly when `hideType` panics on a type of
`refs[t]`; otherwise it returns the types of `refs[t]` on which `hideType` is false,
each of them once. -/
theorem C9_visible_references_once (L : Lib) (ρ : Shuffle) (h : Heap) (t : TypeRef)
    (c : GeneratorConfig) (refs : TypeRef → List TypeRef) :
    (typeReferences L ρ h t c refs = none ↔ ∃ u ∈ refs t, hideType L h u c = none) ∧
    ∀ out, typeReferences L ρ h t c refs = some out →
      out.Nodup ∧ ∀ u, u ∈ out ↔ (u ∈ refs t ∧ hideType L h u c = some false) := by
  unfold typeReferences
  constructor
  · rw [← visibleRefs_none_iff L h c (refs t) []]
    cases visibleRefs L h c (refs t) [] <;> simp
  · intro out hout
    cases hm : visibleRefs L h c (refs t) [] with
    | none => rw [hm] at hout; cases hout
    | some m =>
      rw [hm] at hout
      obtain ⟨h1, h2⟩ := visibleRefs_some L h c (refs t) [] m hm List.nodup_nil
      have hperm : out.Perm m := by
        rw [← Option.some.inj hout]
        exact (sortTypes_perm ρ h _).trans (ρ.perm m)
      refine ⟨hperm.nodup_iff.2 h1, fun u => ?_⟩
      rw [hperm.mem_iff, h2 u]
      simp

/-- Witness of C9: of the entries `Node`, `Node`, `Peer`, `internalHelper` under `Node`
the query returns `Node` and `Peer`. -/
theorem C9_visible_references_once_witness :
    typeReferences demoLib Shuffle.asGiven demoHeap 1 demoConfig
      (findTypeReferences demoHeap [demoApiPackage]) = some [1, 4] ∧
    hideType demoLib demoHeap 6 demoConfig = some true ∧
    ([1, 4] : List TypeRef).Nodup ∧
    ∀ u, u ∈ ([1, 4] : List TypeRef) ↔
      (u ∈ findTypeReferences demoHeap [demoApiPackage] 1 ∧
        hideType demoLib demoHeap u demoConfig = some false) :=
  ⟨by decide, by decide,
    (C9_visible_references_once demoLib Shuffle.asGiven demoHeap 1 demoConfig
      (findTypeReferences demoHeap [demoApiPackage])).2 [1, 4] (by decide)⟩

/-- C10: for a type of kind `Map`, `typeDisplayName` returns `t.Name.Name`, whatever
the type-to-package index and the prefix overrides are. -/
theorem C10_map_display_name (L : Lib) (h : Heap) (t : TypeRef) (c : GeneratorConfig)
    (typePkgMap : TypeRef → Option apiPackage) (hk : (h.type t).Kind = Kind.Map) :
    typeDisplayName L h t c typePkgMap = some (h.type t).Name.Name := by
  unfold typeDisplayName
  simp [hk]

/-- Witness of C10: `map[string]Node` keeps its name under an override of the prefix
`map`, with `Node` in the index. -/
theorem C10_map_display_name_witness :
    (demoHeap.type 7).Kind = Kind.Map ∧
    typeDisplayName demoLib demoHeap 7
      { demoConfig with TypeDisplayNamePrefixOverrides := [("map", "X")] }
      (extractTypeToPackageMap [demoApiPackage]) = some "map[string]example.io/v1.Node" :=
  ⟨by decide, C10_map_display_name demoLib demoHeap 7
    { demoConfig with TypeDisplayNamePrefixOverrides := [("map", "X")] }
    (extractTypeToPackageMap [demoApiPackage]) (by decide)⟩

/-- C12: `safeIdentifier(s)` is `s` with every maximal run of ASCII punctuation replaced
by a single hyphen and then every rune lower-cased by `unicode.ToLower`, which turns the
ASCII capitals into the small letters and keeps any other ASCII character. Given that
the case table sends a rune beyond ASCII to a rune beyond ASCII or to a small ASCII
letter, the result holds no ASCII capital, no ASCII punctuation but the hyphen, and no
two adjacent hyphens. Given that the case table keeps what it returns, the result holds
no rune that lower-casing would change. -/
theorem C12_safeIdentifier_collapses_and_lowers (T : TextLib) (s : String) :
    (safeIdentifier T s).data = (collapsePunctRuns s.data).map (toLowerRune T) ∧
    (upperLetters.map asciiLower = lowerLetters ∧
      ∀ c : Char, c.toNat < 128 →
        toLowerRune T c = asciiLower c ∧ (c ∉ upperLetters → asciiLower c = c)) ∧
    ((∀ c : Char, 128 ≤ c.toNat →
        128 ≤ (T.ToLowerWide c).toNat ∨ T.ToLowerWide c ∈ lowerLetters) →
      (∀ c ∈ (safeIdentifier T s).data, c ∉ upperLetters) ∧
      (∀ c ∈ (safeIdentifier T s).data, c ∈ punctChars → c = '-') ∧
      (safeIdentifier T s).data.Chain' (fun a b => ¬ (a = '-' ∧ b = '-'))) ∧
    ((∀ c : Char, 128 ≤ c.toNat → toLowerRune T (T.ToLowerWide c) = T.ToLowerWide c) →
      ∀ c ∈ (safeIdentifier T s).data, toLowerRune T c = c) := by
  have heq : (safeIdentifier T s).data = (collapsePunctRuns s.data).map (toLowerRune T) := by
    unfold safeIdentifier stringsToLower
    rw [replaceAll_eq_collapse _ _ (le_refl _)]
  refine ⟨heq, ⟨by decide, fun c hc => ⟨toLowerRune_ascii T c hc, fun hu => ?_⟩⟩, ?_, ?_⟩
  · have := asciiLower_fix_table c.toNat hc
    rw [Char.ofNat_toNat] at this
    exact this hu
  · intro hwide
    obtain ⟨hp1, hp2⟩ := collapse_props _ s.data (le_refl _)
    rw [heq]
    refine ⟨?_, ?_, ?_⟩
    · intro c hc
      obtain ⟨a, _, rfl⟩ := List.mem_map.1 hc
      exact (toLowerRune_props T hwide a).1
    · intro c hc hpunct
      obtain ⟨a, ha, rfl⟩ := List.mem_map.1 hc
      have hpa := (toLowerRune_props T hwide a).2.1 (by simpa [isPunct] using hpunct)
      rw [hp1 a ha hpa, toLowerRune_ascii T '-' (by decide)]
      decide
    · rw [List.chain'_map]
      refine hp2.imp ?_
      intro a b hab hcon
      have ha := (toLowerRune_props T hwide a).2.2 hcon.1
      have hb := (toLowerRune_props T hwide b).2.2 hcon.2
      exact hab ⟨by rw [ha]; decide, by rw [hb]; decide⟩
  · intro hidem c hc
    rw [heq] at hc
    obtain ⟨a, _, rfl⟩ := List.mem_map.1 hc
    exact toLowerRune_idem T hidem a

/-- Witness of C12 on `Core__V1..Pod`. -/
theorem C12_safeIdentifier_collapses_and_lowers_witness :
    safeIdentifier demoText "Core__V1..Pod" = "core-v1-pod" ∧
    (∀ c ∈ (safeIdentifier demoText "Core__V1..Pod").data, c ∉ upperLetters) ∧
    (∀ c ∈ (safeIdentifier demoText "Core__V1..Pod").data, c ∈ punctChars → c = '-') ∧
    (safeIdentifier demoText "Core__V1..Pod").data.Chain' (fun a b => ¬ (a = '-' ∧ b = '-')) :=
  ⟨by decide,
    (C12_safeIdentifier_collapses_and_lowers demoText "Core__V1..Pod").2.2.1
      (fun _ hc => Or.inl hc)⟩

/-- C13, as stated, fails: the anchor of `apps/v1.Deployment Spec!` is not
`apps-v1-deployment-spec`, whatever the case table beyond ASCII is. -/
theorem C13_anchor_example_differs :
    ¬ ∃ T : TextLib, safeIdentifier T "apps/v1.Deployment Spec!" = "apps-v1-deployment-spec" := by
  rintro ⟨T, h⟩
  rw [safeIdentifier_example T] at h
  revert h
  decide

/-- C13, amended: `safeIdentifier` maps `apps/v1.Deployment Spec!` to
`apps-v1-deployment spec-`: the space is no punctuation and stays, and the closing
exclamation mark becomes a hyphen at the end. -/
theorem C13_anchor_example (T : TextLib) :
    safeIdentifier T "apps/v1.Deployment Spec!" = "apps-v1-deployment spec-" ∧
    ' ' ∈ (safeIdentifier T "apps/v1.Deployment Spec!").data ∧
    (safeIdentifier T "apps/v1.Deployment Spec!").data.getLast? = some '-' ∧
    isPunct ' ' = false := by
  rw [safeIdentifier_example T]
  decide

/-- C11: for a type of kind struct, interface, alias, builtin or slice and a config with
at most one prefix override, `typeDisplayName` returns the base name -- the local name
of the dereferenced type when it is in the index, else the fully qualified identifier
-- with a leading override prefix replaced, and puts `[]` in front for a slice, after
the override. -/
theorem C11_display_name_one_override (L : Lib) (h : Heap) (t : TypeRef)
    (c : GeneratorConfig) (typePkgMap : TypeRef → Option apiPackage)
    (ov : Option (String × String))
    (hk : (h.type t).Kind = Kind.Struct ∨ (h.type t).Kind = Kind.Interface ∨
      (h.type t).Kind = Kind.Alias ∨ (h.type t).Kind = Kind.Builtin ∨
      (h.type t).Kind = Kind.Slice)
    (hov : c.TypeDisplayNamePrefixOverrides = ov.toList) :
    typeDisplayName L h t c typePkgMap =
      some (if (h.type t).Kind = Kind.Slice then
          "[]" ++ withOverride (displayBase h t typePkgMap) ov
        else withOverride (displayBase h t typePkgMap) ov) := by
  unfold typeDisplayName displayBase
  rw [hov]
  rcases hk with hk | hk | hk | hk | hk <;> simp [hk, applyOverrides_option]

/-- Witness of C11: the slice of the local `Deployment` under the override of `De` by
`X`; the override does not see the `[]`. -/
theorem C11_display_name_one_override_witness :
    typeDisplayName docsLib docsHeap 4
        { demoConfig with TypeDisplayNamePrefixOverrides := [("De", "X")] }
        (extractTypeToPackageMap [docsApiPackage]) = some "[]Xployment" ∧
    typeDisplayName docsLib docsHeap 4
        { demoConfig with TypeDisplayNamePrefixOverrides := [("[]", "X")] }
        (extractTypeToPackageMap [docsApiPackage]) = some "[]Deployment" ∧
    typeDisplayName docsLib docsHeap 4
        { demoConfig with TypeDisplayNamePrefixOverrides := [("De", "X")] }
        (extractTypeToPackageMap [docsApiPackage]) =
      some (if (docsHeap.type 4).Kind = Kind.Slice then
          "[]" ++ withOverride
            (displayBase docsHeap 4 (extractTypeToPackageMap [docsApiPackage]))
            (some ("De", "X"))
        else withOverride
            (displayBase docsHeap 4 (extractTypeToPackageMap [docsApiPackage]))
            (some ("De", "X"))) :=
  ⟨by decide, by decide,
    C11_display_name_one_override docsLib docsHeap 4
      { demoConfig with TypeDisplayNamePrefixOverrides := [("De", "X")] }
      (extractTypeToPackageMap [docsApiPackage]) (some ("De", "X"))
      (by decide) rfl⟩

/-- C14: for a type whose dereferenced type is in the index, `linkForType` returns no
error and `#` followed by the anchor of the dereferenced type, whatever the kind and
the external package rules are. -/
theorem C14_local_link_is_anchor (L : Lib) (T : TextLib) (h : Heap) (t : TypeRef)
    (c : GeneratorConfig) (typePkgMap : TypeRef → Option apiPackage)
    (hlocal : isLocalType h t typePkgMap = true) :
    linkForType L T h t c typePkgMap =
      .ok ("#" ++ anchorIDForLocalType T h (tryDereference h t) typePkgMap) ∧
    ("#" ++ anchorIDForLocalType T h (tryDereference h t) typePkgMap).data.head? = some '#' := by
  have hl : isLocalType h (tryDereference h t) typePkgMap = true := by
    unfold isLocalType at *
    rw [tryDereference_idem]
    exact hlocal
  refine ⟨?_, by simp⟩
  unfold linkForType
  simp only [hl, if_true]

/-- Witness of C14: the slice of the local `Deployment`, under a rule whose pattern
does not compile. -/
theorem C14_local_link_is_anchor_witness :
    linkForType demoLib docsText docsHeap 4
        { demoConfig with ExternalPackages := [⟨"(", ""⟩] }
        (extractTypeToPackageMap [docsApiPackage]) =
      .ok ("#" ++ anchorIDForLocalType docsText docsHeap (tryDereference docsHeap 4)
        (extractTypeToPackageMap [docsApiPackage])) ∧
    anchorIDForLocalType docsText docsHeap (tryDereference docsHeap 4)
        (extractTypeToPackageMap [docsApiPackage]) = "apps-example-io-v1-deployment" :=
  ⟨(C14_local_link_is_anchor demoLib docsText docsHeap 4
      { demoConfig with ExternalPackages := [⟨"(", ""⟩] }
      (extractTypeToPackageMap [docsApiPackage]) (by decide)).1, by decide⟩

/-- C15: for a type that is not local and whose dereferenced kind is struct, pointer,
interface or alias, `linkForType` returns what the template of the first rule whose
pattern matches the fully qualified identifier writes for the local name, the package
path and the segments of the path, when the patterns up to that rule compile and the
template parses; rules behind it are not looked at. The rule of `k8s.io/api/core/v1`
gives `https://pkg.example/k8s.io/api/core/v1#Container` for `Container`. -/
theorem C15_first_matching_rule (L : Lib) (T : TextLib) (h : Heap) (t : TypeRef)
    (c : GeneratorConfig) (typePkgMap : TypeRef → Option apiPackage)
    (pre post : List externalPackage) (rule : externalPackage)
    (matchString : String → Bool) (tpl : TemplateData → Option String) (url : String)
    (hlocal : isLocalType h t typePkgMap = false)
    (hk : (h.type (tryDereference h t)).Kind = Kind.Struct ∨
      (h.type (tryDereference h t)).Kind = Kind.Pointer ∨
      (h.type (tryDereference h t)).Kind = Kind.Interface ∨
      (h.type (tryDereference h t)).Kind = Kind.Alias)
    (hrules : c.ExternalPackages = pre ++ rule :: post)
    (hpre : ∀ v ∈ pre, ∃ r, L.Compile v.TypeMatchPrefix = some r ∧
      r (typeIdentifier h t) = false)
    (hrule : L.Compile rule.TypeMatchPrefix = some matchString)
    (hmatch : matchString (typeIdentifier h t) = true)
    (htpl : T.Template (templateFuncs T) rule.DocsURLTemplate = some tpl)
    (hexec : tpl { TypeIdentifier := (h.type (tryDereference h t)).Name.Name,
                   PackagePath := (h.type (tryDereference h t)).Name.Package,
                   PackageSegments :=
                     (splitSlash (h.type (tryDereference h t)).Name.Package.data).map
                       String.mk } = some url) :
    linkForType L T h t c typePkgMap = .ok url := by
  have hl : isLocalType h (tryDereference h t) typePkgMap = false := by
    unfold isLocalType at *
    rw [tryDereference_idem]
    exact hlocal
  have hid : typeIdentifier h (tryDereference h t) = typeIdentifier h t := by
    unfold typeIdentifier
    rw [tryDereference_idem]
  unfold linkForType
  simp only [hl, Bool.false_eq_true, if_false, hk, if_true, hrules, hid]
  rw [externalLink_skip L T h _ _ pre _ hpre]
  simp only [externalLink, hrule, hmatch, if_true, htpl]
  unfold templateData
  rw [hexec]

/-- Witness of C15: a pointer to `k8s.io/api/core/v1.Container` under three rules, of
which the second and the third match. -/
theorem C15_first_matching_rule_witness :
    linkForType docsLib docsText docsHeap 1
        { demoConfig with ExternalPackages := [otherRule, coreRule, wideRule] }
        (extractTypeToPackageMap [docsApiPackage]) =
      .ok "https://pkg.example/k8s.io/api/core/v1#Container" ∧
    typeIdentifier docsHeap 1 = "k8s.io/api/core/v1.Container" ∧
    (templateData docsHeap (tryDereference docsHeap 1)).PackageSegments =
      ["k8s.io", "api", "core", "v1"] :=
  ⟨C15_first_matching_rule docsLib docsText docsHeap 1
      { demoConfig with ExternalPackages := [otherRule, coreRule, wideRule] }
      (extractTypeToPackageMap [docsApiPackage]) [otherRule] [wideRule] coreRule
      ((docsLib.Compile coreRule.TypeMatchPrefix).getD (fun _ => false))
      ((docsText.Template (templateFuncs docsText) coreRule.DocsURLTemplate).getD
        (fun _ => none))
      "https://pkg.example/k8s.io/api/core/v1#Container"
      (by decide) (by decide) rfl
      (by
        intro v hv
        rw [List.mem_singleton.1 hv]
        exact ⟨(docsLib.Compile otherRule.TypeMatchPrefix).getD (fun _ => true),
          by rfl, by decide⟩)
      (by rfl) (by decide) (by rfl) (by decide),
    by decide, by decide⟩

/-- C16: for a type that is not local, `linkForType` returns the empty link and no
error when the dereferenced kind is none of struct, pointer, interface and alias,
whatever the rules are, and also when every pattern compiles and none matches the
fully qualified identifier. -/
theorem C16_empty_link (L : Lib) (T : TextLib) (h : Heap) (t : TypeRef)
    (c : GeneratorConfig) (typePkgMap : TypeRef → Option apiPackage)
    (hlocal : isLocalType h t typePkgMap = false) :
    (¬ ((h.type (tryDereference h t)).Kind = Kind.Struct ∨
        (h.type (tryDereference h t)).Kind = Kind.Pointer ∨
        (h.type (tryDereference h t)).Kind = Kind.Interface ∨
        (h.type (tryDereference h t)).Kind = Kind.Alias) →
      linkForType L T h t c typePkgMap = .ok "") ∧
    ((∀ v ∈ c.ExternalPackages, ∃ r, L.Compile v.TypeMatchPrefix = some r ∧
        r (typeIdentifier h t) = false) →
      linkForType L T h t c typePkgMap = .ok "") := by
  have hl : isLocalType h (tryDereference h t) typePkgMap = false := by
    unfold isLocalType at *
    rw [tryDereference_idem]
    exact hlocal
  have hid : typeIdentifier h (tryDereference h t) = typeIdentifier h t := by
    unfold typeIdentifier
    rw [tryDereference_idem]
  constructor
  · intro hk
    unfold linkForType
    simp only [hl, Bool.false_eq_true, if_false, hk]
  · intro hnone
    unfold linkForType
    simp only [hl, Bool.false_eq_true, if_false, hid]
    split
    · have := externalLink_skip L T h (tryDereference h t) (typeIdentifier h t)
        c.ExternalPackages [] hnone
      rw [List.append_nil] at this
      rw [this]
      rfl
    · rfl

/-- Witness of C16: the builtin `string` under a rule whose pattern does not compile,
and the external `Container` under a rule that does not match and under no rule. -/
theorem C16_empty_link_witness :
    linkForType docsLib docsText docsHeap 2
        { demoConfig with ExternalPackages := [⟨"(", ""⟩, coreRule] }
        (extractTypeToPackageMap [docsApiPackage]) = .ok "" ∧
    linkForType docsLib docsText docsHeap 0
        { demoConfig with ExternalPackages := [otherRule] }
        (extractTypeToPackageMap [docsApiPackage]) = .ok "" ∧
    linkForType docsLib docsText docsHeap 0 demoConfig
        (extractTypeToPackageMap [docsApiPackage]) = .ok "" :=
  ⟨(C16_empty_link docsLib docsText docsHeap 2
      { demoConfig with ExternalPackages := [⟨"(", ""⟩, coreRule] }
      (extractTypeToPackageMap [docsApiPackage]) (by decide)).1 (by decide),
    (C16_empty_link docsLib docsText docsHeap 0
      { demoConfig with ExternalPackages := [otherRule] }
      (extractTypeToPackageMap [docsApiPackage]) (by decide)).2 (by
        intro v hv
        rw [List.mem_singleton.1 hv]
        exact ⟨(docsLib.Compile otherRule.TypeMatchPrefix).getD (fun _ => true),
          by rfl, by decide⟩),
    (C16_empty_link docsLib docsText docsHeap 0 demoConfig
      (extractTypeToPackageMap [docsApiPackage]) (by decide)).2 (by
        intro v hv
        cases hv)⟩

/-- C17: `constantsOfType(t, pkg)` is an arrangement of the entries of `pkg.Constants`
whose `Underlying` is the pointer `t`, and is empty when there is none. A constant of a
second declaration that equals `t` in every field is left out. -/
theorem C17_constants_by_identity (ρ : Shuffle) (h : Heap) (t : TypeRef) (pkg : apiPackage) :
    (constantsOfType ρ h t pkg).Perm
      (pkg.Constants.filter (fun c => (h.type c).Underlying = some t)) ∧
    (∀ c, c ∈ constantsOfType ρ h t pkg ↔
      c ∈ pkg.Constants ∧ (h.type c).Underlying = some t) ∧
    (constantsOfType ρ h t pkg = [] ↔
      ∀ c ∈ pkg.Constants, (h.type c).Underlying ≠ some t) ∧
    (docsHeap.type 5 = docsHeap.type 7 ∧
      constantsOfType Shuffle.asGiven docsHeap 5 docsApiPackage = [9, 8] ∧
      constantsOfType Shuffle.asGiven docsHeap 7 docsApiPackage = [11] ∧
      constantsOfType Shuffle.asGiven docsHeap 3 docsApiPackage = []) := by
  have hperm : (constantsOfType ρ h t pkg).Perm
      (pkg.Constants.filter (fun c => (h.type c).Underlying = some t)) :=
    sortTypes_perm ρ h _
  refine ⟨hperm, ?_, ?_, by decide⟩
  · intro c
    rw [hperm.mem_iff, List.mem_filter]
    simp
  · rw [← List.length_eq_zero, hperm.length_eq, List.length_eq_zero, List.filter_eq_nil_iff]
    simp

/-- C20: `sortTypes` returns a permutation of its input in which a type with an export
marker never comes behind one without, and of two types that both have or both lack
the marker the earlier has the smaller or the same qualified name. Its comparison is
irreflexive and transitive, and it leaves two types unordered exactly when they agree
in the marker and in the qualified name. -/
theorem C20_sortTypes_order (ρ : Shuffle) (h : Heap) (typs : List TypeRef) :
    (sortTypes ρ h typs).Perm typs ∧
    (sortTypes ρ h typs).Pairwise (fun a b =>
      (isExportedType h b = true → isExportedType h a = true) ∧
      (isExportedType h a = isExportedType h b →
        (h.type a).Name.String ≤ (h.type b).Name.String)) ∧
    (∀ a, typeLess h a a = false) ∧
    (∀ a b c, typeLess h a b = true → typeLess h b c = true → typeLess h a c = true) ∧
    (∀ a b, (typeLess h a b = false ∧ typeLess h b a = false) ↔
      (isExportedType h a = isExportedType h b ∧
        (h.type a).Name.String = (h.type b).Name.String)) ∧
    sortTypes Shuffle.asGiven docsHeap [3, 5, 6, 12, 13, 14] = [14, 3, 6, 5, 13, 12] := by
  refine ⟨sortTypes_perm ρ h typs, ?_, ?_, ?_, ?_, by decide⟩
  · exact (sortTypes_sorted ρ h typs).imp (fun hab => (typeLess_false_iff h _ _).1 hab)
  · intro a
    rw [typeLess_false_iff]
    simp
  · intro a b c
    simp only [typeLess_iff]
    cases isExportedType h a <;> cases isExportedType h b <;>
      cases isExportedType h c <;> simp
    · exact fun h1 h2 => lt_trans h1 h2
    · exact fun h1 h2 => lt_trans h1 h2
  · intro a b
    rw [typeLess_false_iff h b a, typeLess_false_iff h a b]
    constructor
    · rintro ⟨⟨h1, h2⟩, ⟨h3, h4⟩⟩
      have he : isExportedType h a = isExportedType h b :=
        Bool.eq_iff_iff.2 ⟨h1, h3⟩
      exact ⟨he, le_antisymm (h4 he) (h2 he.symm)⟩
    · rintro ⟨he, hn⟩
      exact ⟨⟨fun x => he ▸ x, fun _ => hn.ge⟩, ⟨fun x => he.symm ▸ x, fun _ => hn.le⟩⟩

/-- C18 (code defect): `hideType` tests `unicode.IsLower(rune(t.Name.Name[0]))`, the
first byte of the local name, where its comment and the claim speak of the first
character. The struct `ünit` has no export marker and starts with the lower-case
letter U+00FC, whose first UTF-8 byte 0xC3, read as a rune, is an upper-case letter:
`hideType` is false and `visibleTypes` keeps the type. `internalHelper` is hidden. -/
theorem C18_first_byte_not_first_character :
    visibleTypes demoLib docsHeap demoConfig [3, 12, 13, 14] = some [3, 12, 14] ∧
    hideType demoLib docsHeap 12 demoConfig = some false ∧
    hideType demoLib docsHeap 13 demoConfig = some true ∧
    isExportedType docsHeap 12 = false ∧
    (docsHeap.type 12).Name.Name.data.head? = some (Char.ofNat 0xFC) ∧
    isLowerLatin1 0xFC = true ∧
    firstByte (Char.ofNat 0xFC) = 0xC3 ∧
    isLowerLatin1 0xC3 = false := by
  decide

/-- C19, as stated, fails: for the json tag value `foo,omitempty,inline` `fieldName`
does not return `foo`. -/
theorem C19_omitempty_before_inline :
    demoText.StructTagGet (taggedMember "Foo" "json:\"foo,omitempty,inline\"").Tags "json" =
      "foo,omitempty,inline" ∧
    fieldName demoText (taggedMember "Foo" "json:\"foo,omitempty,inline\"") ≠ "foo" := by
  decide

/-- C19, amended: for a json tag value that is a name without comma followed by
nothing, `,omitempty`, `,inline` or `,inline,omitempty`, `fieldName` returns the name,
and the raw field name when the name is empty or `-` (an absent tag has the empty
value); for a name followed by `,omitempty,inline` it strips `,inline` only and returns
the name followed by `,omitempty`. -/
theorem C19_fieldName_strips_suffixes (T : TextLib) (m : Member) (name tail : String)
    (hn : ',' ∉ name.data) (hv : T.StructTagGet m.Tags "json" = name ++ tail) :
    (tail ∈ strippedTails →
      fieldName T m = if name ≠ "" ∧ name ≠ "-" then name else m.Name) ∧
    (tail = ",omitempty,inline" → fieldName T m = name ++ ",omitempty") := by
  have hstrip := trim_both name tail hn
  constructor
  · intro ht
    have htail : trimSuffix (trimSuffix tail ",omitempty") ",inline" = "" := by
      simp only [strippedTails, List.mem_cons, List.mem_singleton, List.not_mem_nil,
        or_false] at ht
      rcases ht with rfl | rfl | rfl | rfl <;> decide
    unfold fieldName
    simp only [hv, hstrip, htail, String.append_empty]
  · intro ht
    have htail : trimSuffix (trimSuffix tail ",omitempty") ",inline" = ",omitempty" := by
      rw [ht]
      decide
    unfold fieldName
    simp only [hv, hstrip, htail]
    have hlen : (name ++ ",omitempty").data.length ≥ 10 := by
      simp only [String.data_append, List.length_append]
      have hten : (",omitempty" : String).data.length = 10 := by decide
      rw [hten]
      omega
    have h1 : name ++ ",omitempty" ≠ "" := by
      intro he
      rw [he] at hlen
      simp at hlen
    have h2 : name ++ ",omitempty" ≠ "-" := by
      intro he
      rw [he] at hlen
      simp at hlen
    simp [h1, h2]

/-- Witness of C19: the tag values `foo,inline,omitempty` and `-,omitempty`, and
`foo,omitempty,inline`. -/
theorem C19_fieldName_strips_suffixes_witness :
    fieldName demoText (taggedMember "Foo" "json:\"foo,inline,omitempty\"") = "foo" ∧
    fieldName demoText (taggedMember "Foo" "json:\"-,omitempty\"") = "Foo" ∧
    fieldName demoText (taggedMember "Foo" "json:\"foo,omitempty,inline\"") =
      "foo" ++ ",omitempty" :=
  ⟨((C19_fieldName_strips_suffixes demoText
        (taggedMember "Foo" "json:\"foo,inline,omitempty\"") "foo" ",inline,omitempty"
        (by decide) (by decide)).1 (by decide)).trans (by decide),
    ((C19_fieldName_strips_suffixes demoText
        (taggedMember "Foo" "json:\"-,omitempty\"") "-" ",omitempty"
        (by decide) (by decide)).1 (by decide)).trans (by decide),
    (C19_fieldName_strips_suffixes demoText
        (taggedMember "Foo" "json:\"foo,omitempty,inline\"") "foo" ",omitempty,inline"
        (by decide) (by decide)).2 rfl⟩

/-- C22: for a non-empty list `a` and an index `i` with `-len(a) <= i < len(a)`,
`arrIndex(a, i)` does not fail and is `a[i]` for `i >= 0` and `a[len(a)+i]` for
`i < 0`; `arrIndex(a, -1)` is the last element; and the segments of a package path are
never empty. The length is that of a Go slice, below 2^62. -/
theorem C22_arrIndex_in_bounds (a : List String) (i : Int) (hne : a ≠ [])
    (hlen : a.length < 2 ^ 62) (hlo : -(a.length : Int) ≤ i) (hhi : i < (a.length : Int)) :
    (∃ s, arrIndex a i = some s ∧
      (0 ≤ i → a[i.toNat]? = some s) ∧
      (i < 0 → a[((a.length : Int) + i).toNat]? = some s)) ∧
    arrIndex a (-1) = a.getLast? ∧
    (∀ (h : Heap) (t : TypeRef), (templateData h t).PackageSegments ≠ []) := by
  have hpos : 0 < a.length := List.length_pos.2 hne
  refine ⟨?_, ?_, ?_⟩
  · rw [arrIndex_eq a i hlen hlo hhi]
    by_cases hi : 0 ≤ i
    · simp only [if_pos hi]
      have hlt : i.toNat < a.length := by omega
      exact ⟨a[i.toNat], List.getElem?_eq_getElem hlt,
        fun _ => List.getElem?_eq_getElem hlt, fun hneg => by omega⟩
    · simp only [if_neg hi]
      have hlt : ((a.length : Int) + i).toNat < a.length := by omega
      exact ⟨a[((a.length : Int) + i).toNat], List.getElem?_eq_getElem hlt,
        fun hnn => by omega, fun _ => List.getElem?_eq_getElem hlt⟩
  · rw [arrIndex_eq a (-1) hlen (by omega) (by omega), List.getLast?_eq_getElem?]
    have : ((if (0 : Int) ≤ -1 then (-1 : Int) else (a.length : Int) + -1)).toNat =
        a.length - 1 := by
      rw [if_neg (by omega)]
      omega
    rw [this]
  · intro h t
    simp only [templateData, ne_eq, List.map_eq_nil_iff]
    exact splitSlash_ne_nil _

/-- Witness of C22: the segments of `k8s.io/api/core/v1` at the indices 1, -1 and -4. -/
theorem C22_arrIndex_in_bounds_witness :
    arrIndex ["k8s.io", "api", "core", "v1"] 1 = some "api" ∧
    arrIndex ["k8s.io", "api", "core", "v1"] (-1) = some "v1" ∧
    arrIndex ["k8s.io", "api", "core", "v1"] (-4) = some "k8s.io" ∧
    arrIndex ["k8s.io", "api", "core", "v1"] (-1) =
      (["k8s.io", "api", "core", "v1"] : List String).getLast? :=
  ⟨by decide, by decide, by decide,
    (C22_arrIndex_in_bounds ["k8s.io", "api", "core", "v1"] (-1) (by decide) (by decide)
      (by decide) (by decide)).2.1⟩

/-- C21 (code defect): the comment in `generateDoc` and the name of the option speak of
trailing whitespace, but the pattern `(?m)^\s+` matches the whitespace at the beginning
of a line. On the sample text the post-processing deletes the indentation of two
lines and the empty line and keeps the spaces and the tab at the ends of the lines; the
text without trailing whitespace is another one. With `PreserveTrailingWhitespace` the
rendered text comes back as it is. -/
theorem C21_leading_whitespace_removed :
    generateDoc (renderText renderedSample) [] demoConfig = .ok "<p>\na  \nb\t\n</p>\n" ∧
    withoutTrailingSpace renderedSample.data = "<p>\n  a\n\n  b\n</p>\n".data ∧
    generateDoc (renderText renderedSample) []
        { demoConfig with PreserveTrailingWhitespace := true } = .ok renderedSample :=
  ⟨by rfl, by decide, by rfl⟩

/-- C23 (code defect): `typeDisplayName` applies the overrides one after the other in
the order in which `range` visits the map, and an override sees what the ones before it
wrote. For the local struct `Deployment` the overrides `D -> E` and `E -> F` give
`Feployment` in one order and `Eeployment` in the other; the overrides `D -> x` and
`De -> y` give `xeployment` and `yployment`. -/
theorem C23_override_order_matters :
    typeDisplayName docsLib docsHeap 3
        { demoConfig with TypeDisplayNamePrefixOverrides := [("D", "E"), ("E", "F")] }
        (extractTypeToPackageMap [docsApiPackage]) = some "Feployment" ∧
    typeDisplayName docsLib docsHeap 3
        { demoConfig with TypeDisplayNamePrefixOverrides := [("E", "F"), ("D", "E")] }
        (extractTypeToPackageMap [docsApiPackage]) = some "Eeployment" ∧
    typeDisplayName docsLib docsHeap 3
        { demoConfig with TypeDisplayNamePrefixOverrides := [("D", "x"), ("De", "y")] }
        (extractTypeToPackageMap [docsApiPackage]) = some "xeployment" ∧
    typeDisplayName docsLib docsHeap 3
        { demoConfig with TypeDisplayNamePrefixOverrides := [("De", "y"), ("D", "x")] }
        (extractTypeToPackageMap [docsApiPackage]) = some "yployment" ∧
    ([("D", "E"), ("E", "F")] : List (String × String)).Perm [("E", "F"), ("D", "E")] := by
  decide

end CrdDocs
